import Mathlib

/-!
Verification of the codebase-context relevance engine and the single-flight
enhancement pipeline of the `code-prompt-enhancer` repository
(`prompt_enhancer.py`, class `OptimizedCodingEnglishEnhancer`), via a shallow
embedding of the Python source into Lean.

Conventions of the embedding:
* Python strings are modelled as `List Char` / `String`.
* Python's `\s`, `\w`, `str.lower()`, `str.strip()` are modelled over their
  ASCII meaning (`[ \t\n\r\x0b\x0c]`, `[A-Za-z0-9_]`, ASCII case folding),
  which is the fragment the program's data exercises.
* The regex substitutions of `_clean_text` are embedded as leftmost scanners
  with the exact greedy/lazy behaviour of the Python `re` engine on these
  four patterns; the scanners take an explicit fuel argument (instantiated
  with the string length, which each step strictly decreases) so that they
  are structurally recursive and evaluate inside the kernel.
* `os.walk` results are modelled as an explicit list of
  `(directory path, file names)` pairs, and file reads as a partial map
  `String → Option String` (`none` = unreadable file, mirroring the
  swallowed per-file I/O errors).
-/

/-! ## Character classes (ASCII models of Python's `\s`, `[ \t]`, `\w`, case folding) -/

/-- Python `\s` over ASCII: space, tab, newline, carriage return,
vertical tab, form feed. -/
def isPySpace (c : Char) : Bool :=
  c = ' ' || c = '\t' || c = '\n' || c = '\r' || c = '\x0b' || c = '\x0c'

/-- The horizontal whitespace class `[ \t]` of `MULTIPLE_SPACES_PATTERN`. -/
def isHSpace (c : Char) : Bool :=
  c = ' ' || c = '\t'

/-- Python `\w` over ASCII: `[A-Za-z0-9_]`. -/
def isWordChar (c : Char) : Bool :=
  ('a' ≤ c && c ≤ 'z') || ('A' ≤ c && c ≤ 'Z') || ('0' ≤ c && c ≤ '9') || c = '_'

/-- The character class `[\w\-\./]` of the path pattern in
`_extract_keywords_from_prompt`. -/
def isPathChar (c : Char) : Bool :=
  isWordChar c || c = '-' || c = '.' || c = '/'

/-- ASCII uppercase test, `c ∈ [A-Z]`. -/
def isUpperChar (c : Char) : Bool :=
  'A' ≤ c && c ≤ 'Z'

/-- ASCII model of Python `str.lower()`, one character at a time. -/
def lowerChar (c : Char) : Char :=
  if isUpperChar c then Char.ofNat (c.toNat + 32) else c

/-- `str.lower()` over a whole string (as a character list). -/
def lowerList (l : List Char) : List Char :=
  l.map lowerChar

/-- Exact (case-sensitive) list prefix test. -/
def pfxOfB : List Char → List Char → Bool
  | [], _ => true
  | _ :: _, [] => false
  | a :: as, b :: bs => a == b && pfxOfB as bs

/-- Exact substring test: `needle` occurs contiguously inside `hay`
(Python's `needle in hay`). -/
def subOfB (needle : List Char) : List Char → Bool
  | [] => pfxOfB needle []
  | c :: rest => pfxOfB needle (c :: rest) || subOfB needle rest

/-- Case-insensitive prefix test: `pat` (given already lower-cased)
is a prefix of `lowerList l`. -/
def ciPfx : List Char → List Char → Bool
  | [], _ => true
  | _ :: _, [] => false
  | p :: ps, c :: cs => p == lowerChar c && ciPfx ps cs

/-- Case-insensitive substring test: `pat` (given lower-cased)
occurs contiguously inside `lowerList l`. -/
def ciSub (pat : List Char) : List Char → Bool
  | [] => ciPfx pat []
  | c :: rest => ciPfx pat (c :: rest) || ciSub pat rest

/-! ## `_clean_text`, step 1: `THINK_TAG_PATTERN = <think>.*?</think>` (DOTALL, IGNORECASE) -/

/-- The literal `<think>` opening tag, lower-cased. -/
def openTagL : List Char := '<' :: 't' :: 'h' :: 'i' :: 'n' :: 'k' :: '>' :: []

/-- The literal `</think>` closing tag, lower-cased. -/
def closeTagL : List Char := '<' :: '/' :: 't' :: 'h' :: 'i' :: 'n' :: 'k' :: '>' :: []

/-- The letters `think`, lower-cased. -/
def thinkL : List Char := 't' :: 'h' :: 'i' :: 'n' :: 'k' :: []

/-- Lazy `.*?</think>`: find the earliest case-insensitive `</think>` and
return the suffix after it (the `re` engine's non-greedy search for the
closing tag, with DOTALL so any characters may precede it). -/
def findClose : List Char → Option (List Char)
  | [] => none
  | c :: rest =>
    if ciPfx closeTagL (c :: rest) then some ((c :: rest).drop 8)
    else findClose rest

/-- One pass of `THINK_TAG_PATTERN.sub('', ·)`: leftmost scan; at each
position, if `<think>` matches case-insensitively and a closing `</think>`
exists later, drop the whole block and resume after it, otherwise keep the
character and move one position right. `fuel` bounds the recursion and is
instantiated with the list length. -/
def rtbF : Nat → List Char → List Char
  | 0, l => l
  | _ + 1, [] => []
  | f + 1, c :: rest =>
    if ciPfx openTagL (c :: rest) then
      match findClose ((c :: rest).drop 7) with
      | some r => rtbF f r
      | none => c :: rtbF f rest
    else c :: rtbF f rest

/-- `THINK_TAG_PATTERN.sub('', text)`. -/
def removeThinkBlocks (l : List Char) : List Char := rtbF l.length l

/-! ## `_clean_text`, step 2: `THINK_OPEN_CLOSE_PATTERN = </?think[^>]*>` (IGNORECASE) -/

/-- Greedy `[^>]*>`: skip to the first `>` and return the suffix after it
(`[^>]*` cannot cross a `>`, so the first `>` is the only viable end). -/
def skipToGt : List Char → Option (List Char)
  | [] => none
  | c :: rest => if c = '>' then some rest else skipToGt rest

/-- Try to match `</?think[^>]*>` (IGNORECASE) at the head of the list,
returning the suffix after the match. `<` and `>` match literally; `/?` is
an optional slash; `think` matches case-insensitively. -/
def matchTag (l : List Char) : Option (List Char) :=
  match l with
  | '<' :: r1 =>
    match r1 with
    | '/' :: r2 => if ciPfx thinkL r2 then skipToGt (r2.drop 5) else none
    | _ => if ciPfx thinkL r1 then skipToGt (r1.drop 5) else none
  | _ => none

/-- One pass of `THINK_OPEN_CLOSE_PATTERN.sub('', ·)`: leftmost scan,
removing each stray open/close think tag. -/
def rttF : Nat → List Char → List Char
  | 0, l => l
  | _ + 1, [] => []
  | f + 1, c :: rest =>
    match matchTag (c :: rest) with
    | some r => rttF f r
    | none => c :: rttF f rest

/-- `THINK_OPEN_CLOSE_PATTERN.sub('', text)`. -/
def removeThinkTags (l : List Char) : List Char := rttF l.length l

/-! ## `_clean_text`, step 3: `MULTIPLE_NEWLINES_PATTERN = \n\s*\n` ↦ `\n\n` -/

/-- Greedy `\s*\n` after an initial `\n`: return the suffix after the
*last* newline reachable through whitespace (the greedy `\s*` backtracks to
the final `\n` of the whitespace run), or `none` when the whitespace prefix
contains no newline. -/
def grabNl : List Char → Option (List Char)
  | [] => none
  | c :: rest =>
    if isPySpace c then
      match grabNl rest with
      | some r => some r
      | none => if c = '\n' then some rest else none
    else none

/-- One pass of `MULTIPLE_NEWLINES_PATTERN.sub('\n\n', ·)`: leftmost scan;
at a `\n` whose following whitespace run contains another `\n`, replace the
matched stretch by exactly `\n\n` and resume after it. -/
def cnF : Nat → List Char → List Char
  | 0, l => l
  | _ + 1, [] => []
  | f + 1, c :: rest =>
    if c = '\n' then
      match grabNl rest with
      | some r => '\n' :: '\n' :: cnF f r
      | none => '\n' :: cnF f rest
    else c :: cnF f rest

/-- `MULTIPLE_NEWLINES_PATTERN.sub('\n\n', text)`. -/
def collapseNewlines (l : List Char) : List Char := cnF l.length l

/-! ## `_clean_text`, step 4: `MULTIPLE_SPACES_PATTERN = [ \t]+` ↦ `' '` -/

/-- One pass of `MULTIPLE_SPACES_PATTERN.sub(' ', ·)`: each maximal run of
spaces/tabs becomes a single space. -/
def csF : Nat → List Char → List Char
  | 0, l => l
  | _ + 1, [] => []
  | f + 1, c :: rest =>
    if isHSpace c then ' ' :: csF f (rest.dropWhile isHSpace)
    else c :: csF f rest

/-- `MULTIPLE_SPACES_PATTERN.sub(' ', text)`. -/
def collapseSpaces (l : List Char) : List Char := csF l.length l

/-! ## `_clean_text`, step 5: `str.strip()` -/

/-- Python `str.strip()`: drop leading and trailing whitespace. -/
def stripChars (l : List Char) : List Char :=
  (((l.dropWhile isPySpace).reverse.dropWhile isPySpace)).reverse

/-- `text.strip()` at the `String` level. -/
def pyStrip (s : String) : String := ⟨stripChars s.data⟩

/-! ## `_clean_text` itself -/

/-- The full `_clean_text` pipeline on character lists: strip think blocks,
strip stray think tags, collapse multiple newlines, collapse horizontal
whitespace runs, then strip. -/
def cleanChars (l : List Char) : List Char :=
  stripChars (collapseSpaces (collapseNewlines (removeThinkTags (removeThinkBlocks l))))

/-- `_clean_text(text)` on `String`. -/
def cleanText (s : String) : String := ⟨cleanChars s.data⟩

/-! ## `_extract_keywords_from_prompt` -/

/-- Greedy tail of the path pattern after the mandatory first
`[\w\-\./]` character: consume further `[\w\-\./]` characters with
backtracking, then a literal `.`, then a greedy nonempty `[\w]+` run.
Returns `(consumed match tail, remainder)`. This mirrors the `re` engine's
backtracking for `[\w\-\./]+\.[\w]+`: extending the leading class run is
preferred, and on failure the engine retries the `\.` at the current spot. -/
def matchSfx : List Char → Option (List Char × List Char)
  | [] => none
  | c :: rest =>
    if isPathChar c then
      match matchSfx rest with
      | some (m, r) => some (c :: m, r)
      | none =>
        if c = '.' && isWordChar (rest.head?.getD ' ') then
          some ('.' :: rest.takeWhile isWordChar, rest.dropWhile isWordChar)
        else none
    else none

/-- Try to match `[\w\-\./]+\.[\w]+` at the head of the list, returning the
matched substring and the remainder. -/
def matchPathAt : List Char → Option (List Char × List Char)
  | [] => none
  | c :: rest =>
    if isPathChar c then
      match matchSfx rest with
      | some (m, r) => some (c :: m, r)
      | none => none
    else none

/-- `path_pattern.findall(text)`: leftmost non-overlapping matches; on
failure, advance a single character. -/
def findPathsF : Nat → List Char → List (List Char)
  | 0, _ => []
  | _ + 1, [] => []
  | f + 1, c :: rest =>
    match matchPathAt (c :: rest) with
    | some (m, r) => m :: findPathsF f r
    | none => findPathsF f rest

/-- All matches of `[\w\-\./]+\.[\w]+` in `l`. -/
def findPaths (l : List Char) : List (List Char) := findPathsF l.length l

/-- `re.findall(r'\b\w+\b', text)`: the maximal word-character runs of `l`
(the surrounding `\b` make each match a maximal run). `cur` carries the
current run reversed. -/
def wordRunsAux (cur : List Char) : List Char → List (List Char)
  | [] => if cur.isEmpty then [] else [cur.reverse]
  | c :: rest =>
    if isWordChar c then wordRunsAux (c :: cur) rest
    else if cur.isEmpty then wordRunsAux [] rest
    else cur.reverse :: wordRunsAux [] rest

/-- The word tokens of `l`. -/
def wordRuns (l : List Char) : List (List Char) := wordRunsAux [] l

/-- The fixed stop-word list of `_extract_keywords_from_prompt`. -/
def stopWords : List String :=
  ["the", "a", "an", "is", "to", "in", "on", "for", "of", "with", "and", "or", "but"]

/-- `_extract_keywords_from_prompt(text)`: path-like substrings (original
case) unioned with the lower-cased word tokens minus stop words. The Python
sets are modelled as lists; only membership matters downstream. -/
def extractKeywords (text : String) : List String :=
  let paths : List String := (findPaths text.data).map fun l => ⟨l⟩
  let words : List String := (wordRuns (lowerList text.data)).map fun l => ⟨l⟩
  words.filter (fun w => ¬ stopWords.contains w) ++ paths

/-! ## `_find_relevant_files` -/

/-- The filesystem a scan runs over: `walk` is the sequence of
`(dirpath, filenames)` pairs `os.walk` yields (directories in walk order),
and `readFile` maps a file path to its text content, `none` meaning the
`open`/`read` raises (the code swallows such errors and skips the file). -/
structure FileSys where
  walk : List (String × List String)
  readFile : String → Option String

/-- `any(d in root for d in {'.git', '__pycache__', 'node_modules'})`:
the subtree-skipping test on a directory path. -/
def skipDir (root : String) : Bool :=
  subOfB ".git".data root.data || subOfB "__pycache__".data root.data ||
    subOfB "node_modules".data root.data

/-- `os.path.join(root, file)` for POSIX paths. -/
def joinPath (root file : String) : String := root ++ "/" ++ file

/-- `needle in hay` on Python strings. -/
def strIn (needle hay : String) : Bool := subOfB needle.data hay.data

/-- `relevant_files.add(path)`: set insertion, modelled as
append-if-absent on a duplicate-free list. -/
def insertNew (acc : List String) (p : String) : List String :=
  if acc.contains p then acc else acc ++ [p]

/-- The inner `for file in files` loop of `_find_relevant_files`: before
each file the 10-element cap breaks out of the loop; a keyword in the
lower-cased filename accepts the file immediately; otherwise the first 512
characters of content are sampled (unreadable files are skipped) and
matched the same way. -/
def scanFiles (fs : FileSys) (kws : List String) (droot : String)
    (acc : List String) : List String → List String
  | [] => acc
  | f :: rest =>
    if 10 ≤ acc.length then acc
    else
      let path := joinPath droot f
      if kws.any fun k => subOfB k.data (lowerList f.data) then
        scanFiles fs kws droot (insertNew acc path) rest
      else
        match fs.readFile path with
        | none => scanFiles fs kws droot acc rest
        | some content =>
          if kws.any fun k => subOfB k.data (lowerList (content.data.take 512)) then
            scanFiles fs kws droot (insertNew acc path) rest
          else scanFiles fs kws droot acc rest

/-- The `for root, _, files in os.walk(...)` loop: directories whose path
contains one of the skip markers are passed over, the rest are scanned. -/
def walkDirs (fs : FileSys) (kws : List String)
    (acc : List String) : List (String × List String) → List String
  | [] => acc
  | d :: rest =>
    if skipDir d.1 then walkDirs fs kws acc rest
    else walkDirs fs kws (scanFiles fs kws d.1 acc d.2) rest

/-- The set of relevant files `_find_relevant_files` accumulates
(as a duplicate-free list in insertion order; the Python `set`'s iteration
order is irrelevant to the claims, which are about membership and size). -/
def relevantFilesAcc (fs : FileSys) (kws : List String) : List String :=
  walkDirs fs kws [] fs.walk

/-- `'sep'.join(l)`. -/
def joinSep (sep : String) : List String → String
  | [] => ""
  | [s] => s
  | s :: rest => s ++ sep ++ joinSep sep rest

/-- `os.path.relpath(p, base)` for the paths this model builds:
`base ++ "/" ++ rel ↦ rel`, other paths unchanged. -/
def relPath (base p : String) : String :=
  if pfxOfB (base ++ "/").data p.data then ⟨p.data.drop (base ++ "/").data.length⟩ else p

/-- `_find_relevant_files(keywords)`: empty string when no codebase folder
is selected or the keyword set is empty, otherwise the scan's results
formatted as a bulleted block (empty string when nothing matched). -/
def findRelevantFiles (fs : FileSys) (codebasePath : Option String)
    (kws : List String) : String :=
  match codebasePath with
  | none => ""
  | some cb =>
    if kws.isEmpty then ""
    else
      let rel := relevantFilesAcc fs kws
      if rel.isEmpty then ""
      else "Relevant files found:\n- " ++ joinSep "\n- " (rel.map (relPath cb))

/-! ## The enhancement request pipeline (`_enhance_text`, `_enhance_and_display_worker`,
`_enhance_with_groq`, `_add_to_history`) -/

/-- The pipeline state shared between the UI thread and the worker:
the process-wide in-flight flag `_is_enhancing` and the in-memory
`_enhancement_history`. -/
structure PipeState where
  isEnhancing : Bool
  history : List String
deriving DecidableEq, Repr

/-- The observable actions `_enhance_text` and the worker perform:
the empty-input warning dialog, starting the status animation, submitting
the worker task to the thread pool, scheduling `_display_result` on the UI
thread, and scheduling the API-error dialog. -/
inductive UIEvent where
  | warnEmptyInput
  | animateStatus
  | submitWorker (text : String)
  | displayResult (text : String)
  | showApiError (msg : String)
deriving DecidableEq, Repr

/-- The lazy `groq_client` property: with an empty API key no client is
ever constructed; with a key, construction may still fail (`initOk` stands
for the `Groq(...)` constructor succeeding), leaving the client `None`. -/
def groqClientReady (apiKey : String) (initOk : Bool) : Bool :=
  if apiKey = "" then false else initOk

/-- Outcome of `_enhance_with_groq`: the `ValueError` raised before the
request when no client exists, the wrapped `API Error: ...` exception, or
the cleaned completion text. -/
inductive GroqOutcome where
  | notInitialized
  | apiError (msg : String)
  | ok (cleanedText : String)
deriving DecidableEq, Repr

/-- `_enhance_with_groq(text)`: the API collaborator is an opaque function
returning the completion content or raising (`Except.error` with the
provider's message). The second component counts how many network calls
were made on the path taken. -/
def enhanceWithGroq (clientReady : Bool) (api : String → Except String String)
    (text : String) : GroqOutcome × Nat :=
  if ¬ clientReady then (.notInitialized, 0)
  else
    match api text with
    | .ok raw => (.ok (cleanText raw), 1)
    | .error e => (.apiError ("API Error: " ++ e), 1)

/-- `_enhance_text()`: the single-flight entry point. A call while
`_is_enhancing` is true returns immediately, producing no event at all;
blank input warns; otherwise the flag is set, the animation starts and the
worker is submitted with the stripped input. -/
def enhanceText (s : PipeState) (raw : String) : PipeState × List UIEvent :=
  if s.isEnhancing then (s, [])
  else
    let input := pyStrip raw
    if input = "" then (s, [.warnEmptyInput])
    else ({ s with isEnhancing := true }, [.animateStatus, .submitWorker input])

/-- `_enhance_and_display_worker(text)`: run `_enhance_with_groq`; on
success clear the flag and schedule `_display_result`, on any exception
clear the flag and schedule the error dialog. The history list is only
touched later by `_display_result`, never here. -/
def enhanceWorker (s : PipeState) (clientReady : Bool)
    (api : String → Except String String) (text : String) : PipeState × List UIEvent :=
  match (enhanceWithGroq clientReady api text).1 with
  | .ok enhanced => ({ s with isEnhancing := false }, [.displayResult enhanced])
  | .notInitialized =>
    ({ s with isEnhancing := false }, [.showApiError "API Client not initialized."])
  | .apiError m => ({ s with isEnhancing := false }, [.showApiError m])

/-- `_add_to_history(text)`: blank text is a no-op; otherwise the text is
prepended, the list truncated to 10 and saved. The second component is the
list written to the history file (`none` = the file is not rewritten). -/
def addToHistory (s : PipeState) (text : String) :
    PipeState × Option (List String) :=
  if text = "" || pyStrip text = "" then (s, none)
  else
    let h := (text :: s.history).take 10
    ({ s with history := h }, some h)

/-- Folding repeated `_add_to_history` calls over a list of texts. -/
def addAllToHistory (s : PipeState) (ts : List String) : PipeState :=
  ts.foldl (fun a t => (addToHistory a t).1) s

/-! ## Index-based context gathering (C2)

Modelled from the spec: the cache-index lookup of spec §4.2 — computing
`<root>/.enhancer_cache/index.json`, parsing it as a keyword→file-list
mapping, unioning the lists of keywords present as keys, and falling back
to the live scan (with a user-visible status update when the file is
missing, a logged ParseError when it is malformed) — belongs to the Qt
backend whose caller `qt_main_window.py` is in `src/` but whose own module
is not among the source files; the tkinter variants in `src/` have no
index lookup. The definitions below follow the spec's words. -/

/-- Modelled from the spec: the cache index path
`<root>/.enhancer_cache/index.json` (spec §4.2, §6). -/
def cacheIndexPath (root : String) : String :=
  root ++ "/.enhancer_cache/index.json"

/-- Modelled from the spec: "for each keyword present as a key, union its
file list into a relevant-file accumulator" (spec §4.2). The parsed index
is a keyword → file-list mapping. -/
def indexUnion (m : List (String × List String)) (kws : List String) : List String :=
  m.foldl (fun acc kv => if kws.contains kv.1 then acc ++ kv.2 else acc) []

/-- Modelled from the spec: the formatted index-lookup block of up to 10
entries (spec §4.2). -/
def indexBlock (files : List String) : String :=
  if files.isEmpty then ""
  else "Relevant files found (from index):\n- " ++ joinSep "\n- " (files.take 10)

/-- Outcome of the index-based context gathering: the relevance block, a
flag recording whether the live filesystem scan was performed, and the
user-visible status updates issued. -/
structure ContextResult where
  block : String
  liveScanUsed : Bool
  statusUpdates : List String
deriving DecidableEq, Repr

/-- Modelled from the spec: context gathering for a request with a codebase
root (spec §4.2). `readAt` models the filesystem (`none` = file does not
exist) and `parseIdx` the JSON parse (`none` = malformed, the recoverable
ParseError). A missing index file surfaces the "No index found" status and
delegates to the live scan; a malformed one is logged and falls through to
the live scan; a valid one answers from the union of its entries and never
touches the live scan. -/
def gatherContext (readAt : String → Option String)
    (parseIdx : String → Option (List (String × List String)))
    (liveScanBlock : String) (root : String) (kws : List String) : ContextResult :=
  match readAt (cacheIndexPath root) with
  | none => ⟨liveScanBlock, true, ["No index found — performing live search"]⟩
  | some content =>
    match parseIdx content with
    | none => ⟨liveScanBlock, true, []⟩
    | some m => ⟨indexBlock (indexUnion m kws), false, []⟩

/-! ## Predicates used by the theorems -/

/-- The keyword contains an ASCII uppercase letter. -/
def hasUpperStr (s : String) : Bool := s.data.any isUpperChar

/-- `l` contains a stretch `'\n' w '\n'` with `w` a nonempty run of
whitespace: exactly the occurrences at which `MULTIPLE_NEWLINES_PATTERN`
still rewrites the string. -/
def BadNl (l : List Char) : Prop :=
  ∃ a w b, l = a ++ '\n' :: (w ++ '\n' :: b) ∧ w ≠ [] ∧ ∀ c ∈ w, isPySpace c = true

/-- `l` starts with a (possibly empty) whitespace run followed by a
newline. -/
def NlPfx (l : List Char) : Prop :=
  ∃ w b, l = w ++ '\n' :: b ∧ ∀ c ∈ w, isPySpace c = true

/-- `l` starts with a nonempty whitespace run followed by a newline. -/
def WeakNlPfx (l : List Char) : Prop :=
  ∃ w b, l = w ++ '\n' :: b ∧ w ≠ [] ∧ ∀ c ∈ w, isPySpace c = true

/-- `l` contains no tab and no two adjacent horizontal-whitespace
characters: exactly the strings `MULTIPLE_SPACES_PATTERN` leaves alone. -/
def NoTabTwo (l : List Char) : Prop :=
  ('\t' ∉ l) ∧ ¬ ∃ a b x y, l = a ++ x :: y :: b ∧ isHSpace x = true ∧ isHSpace y = true

/-- `s` matches the full path pattern `[\w\-\./]+\.[\w]+`: some dot at
position `p ≥ 1` splits it into a nonempty path-character run, the dot, and
a nonempty trailing word-character run. -/
def pathFullMatch (s : List Char) : Bool :=
  (List.range s.length).any fun p =>
    decide (1 ≤ p) && (s.take p).all isPathChar && (s.getD p ' ' == '.') &&
      decide (p + 1 < s.length) && (s.drop (p + 1)).all isWordChar

/-- The last character of `a` (if any) is outside the path-pattern class,
so a path match cannot extend leftwards across it. -/
def LastNonPath (a : List Char) : Prop :=
  ∀ c, a.getLast? = some c → isPathChar c = false

/-- The first character of `b` (if any) is outside the path-pattern class,
so a path match cannot extend rightwards into it. -/
def HeadNonPath (b : List Char) : Prop :=
  ∀ c, b.head? = some c → isPathChar c = false

/-! # Theorems

## Character-level facts -/

theorem upperChar_toNat_bounds {c : Char} (h : isUpperChar c = true) :
    65 ≤ c.toNat ∧ c.toNat ≤ 90 := by
  simp only [isUpperChar, Bool.and_eq_true, decide_eq_true_eq] at h
  obtain ⟨h1, h2⟩ := h
  constructor
  · exact h1
  · exact h2

theorem ofNat_shift_not_upper :
    ∀ n, n < 91 → 65 ≤ n → isUpperChar (Char.ofNat (n + 32)) = false := by decide

theorem lowerChar_not_upper (c : Char) : isUpperChar (lowerChar c) = false := by
  unfold lowerChar
  split
  · rename_i h
    obtain ⟨h1, h2⟩ := upperChar_toNat_bounds h
    exact ofNat_shift_not_upper c.toNat (by omega) h1
  · rename_i h
    exact Bool.not_eq_true _ ▸ (by simpa using h)

theorem lowerChar_of_pySpace {c : Char} (h : isPySpace c = true) : lowerChar c = c := by
  simp only [isPySpace, Bool.or_eq_true, decide_eq_true_eq] at h
  rcases h with ((((h | h) | h) | h) | h) | h <;> subst h <;> decide

theorem not_pySpace_ne {p : Char} (h : isPySpace p = false) :
    p ≠ ' ' ∧ p ≠ '\n' := by
  simp only [isPySpace, Bool.or_eq_false_iff, decide_eq_false_iff_not] at h
  exact ⟨h.1.1.1.1.1, h.1.1.1.2⟩

/-! ## Prefix and substring basics -/

theorem ciPfx_nil_pat (l : List Char) : ciPfx [] l = true := by
  cases l <;> rfl

theorem ciSub_nil_pat (l : List Char) : ciSub [] l = true := by
  induction l with
  | nil => rfl
  | cons c rest ih => simp [ciSub, ciPfx_nil_pat]

theorem ciPfx_append_left {p q l : List Char} (h : ciPfx (p ++ q) l = true) :
    ciPfx p l = true := by
  induction p generalizing l with
  | nil => exact ciPfx_nil_pat l
  | cons a as ih =>
    cases l with
    | nil => simp [ciPfx] at h
    | cons c cs =>
      simp only [List.cons_append, ciPfx, Bool.and_eq_true] at h ⊢
      exact ⟨h.1, ih h.2⟩

theorem ciPfx_extend {p x b : List Char} (h : ciPfx p x = true) :
    ciPfx p (x ++ b) = true := by
  induction p generalizing x with
  | nil => exact ciPfx_nil_pat _
  | cons a as ih =>
    cases x with
    | nil => simp [ciPfx] at h
    | cons c cs =>
      simp only [ciPfx, Bool.and_eq_true, List.cons_append] at h ⊢
      exact ⟨h.1, ih h.2⟩

theorem ciSub_of_ciPfx {p l : List Char} (h : ciPfx p l = true) : ciSub p l = true := by
  cases l with
  | nil =>
    cases p with
    | nil => rfl
    | cons a as => simp [ciPfx] at h
  | cons c cs => simp [ciSub, h]

theorem ciSub_append_right {pat r : List Char} (a : List Char)
    (h : ciSub pat r = true) : ciSub pat (a ++ r) = true := by
  induction a with
  | nil => exact h
  | cons c cs ih =>
    cases pat with
    | nil => exact ciSub_nil_pat _
    | cons p ps => simpa [ciSub] using Or.inr ih

theorem ciSub_append_left {pat x : List Char} (b : List Char)
    (h : ciSub pat x = true) : ciSub pat (x ++ b) = true := by
  induction x with
  | nil =>
    cases pat with
    | nil => exact ciSub_nil_pat _
    | cons p ps => simp [ciSub, ciPfx] at h
  | cons c cs ih =>
    simp only [ciSub, Bool.or_eq_true, List.cons_append] at h ⊢
    rcases h with h | h
    · exact Or.inl (ciPfx_extend h)
    · exact Or.inr (ih h)

theorem ciSub_of_infix {pat x l : List Char} (hx : ciSub pat x = true)
    (hinf : ∃ a b, l = a ++ x ++ b) : ciSub pat l = true := by
  obtain ⟨a, b, rfl⟩ := hinf
  rw [List.append_assoc]
  exact ciSub_append_right a (ciSub_append_left b hx)

theorem ciSub_dropWhile {pat : List Char} (q : Char → Bool) {l : List Char}
    (h : ciSub pat (l.dropWhile q) = true) : ciSub pat l = true := by
  have := List.takeWhile_append_dropWhile (p := q) (l := l)
  calc ciSub pat l = ciSub pat (l.takeWhile q ++ l.dropWhile q) := by rw [this]
    _ = true := ciSub_append_right _ h

/-! ## `stripChars` facts -/

theorem strip_decomp (l : List Char) : ∃ a b, l = a ++ stripChars l ++ b := by
  refine ⟨l.takeWhile isPySpace,
    ((l.dropWhile isPySpace).reverse.takeWhile isPySpace).reverse, ?_⟩
  have hD : l.dropWhile isPySpace
      = stripChars l ++ ((l.dropWhile isPySpace).reverse.takeWhile isPySpace).reverse := by
    unfold stripChars
    rw [← List.reverse_append, List.takeWhile_append_dropWhile, List.reverse_reverse]
  calc l = l.takeWhile isPySpace ++ l.dropWhile isPySpace :=
        (List.takeWhile_append_dropWhile (p := isPySpace) (l := l)).symm
    _ = l.takeWhile isPySpace
        ++ (stripChars l ++ ((l.dropWhile isPySpace).reverse.takeWhile isPySpace).reverse) := by
        rw [← hD]
    _ = _ := by rw [← List.append_assoc]
theorem head?_dropWhile {p : Char → Bool} {l : List Char} {c : Char}
    (h : (l.dropWhile p).head? = some c) : p c = false := by
  induction l with
  | nil => simp [List.dropWhile] at h
  | cons a as ih =>
    rw [List.dropWhile_cons] at h
    split at h
    · exact ih h
    · simp only [List.head?_cons, Option.some.injEq] at h
      subst h
      rename_i hp
      exact Bool.not_eq_true _ ▸ (by simpa using hp)

theorem dropWhile_fix {p : Char → Bool} {l : List Char}
    (h : ∀ c, l.head? = some c → p c = false) : l.dropWhile p = l := by
  cases l with
  | nil => rfl
  | cons a as => exact List.dropWhile_cons_of_neg (by simp [h a rfl])

theorem strip_idem (l : List Char) : stripChars (stripChars l) = stripChars l := by
  set X := (l.dropWhile isPySpace).reverse with hX
  have hyrev : (stripChars l).reverse = X.dropWhile isPySpace := by
    unfold stripChars
    rw [List.reverse_reverse]
  have step2 : (stripChars l).reverse.dropWhile isPySpace = (stripChars l).reverse := by
    rw [hyrev]
    exact dropWhile_fix fun c hc => head?_dropWhile hc
  have step1 : (stripChars l).dropWhile isPySpace = stripChars l := by
    refine dropWhile_fix fun c hc => ?_
    have h1 : (X.dropWhile isPySpace).getLast? = some c := by
      have : stripChars l = (X.dropWhile isPySpace).reverse := rfl
      rw [this, List.head?_reverse] at hc
      exact hc
    have hne : X.dropWhile isPySpace ≠ [] := by
      intro hnil
      rw [hnil] at h1
      simp at h1
    have h2 : X.getLast? = some c := by
      conv_lhs => rw [← List.takeWhile_append_dropWhile (p := isPySpace) (l := X)]
      rw [List.getLast?_append_of_ne_nil _ hne]
      exact h1
    have h3 : (l.dropWhile isPySpace).head? = some c := by
      rw [hX, List.getLast?_reverse] at h2
      exact h2
    exact head?_dropWhile h3
  show (((stripChars l).dropWhile isPySpace).reverse.dropWhile isPySpace).reverse = stripChars l
  rw [step1, step2, List.reverse_reverse]

/-! ## `BadNl`, `NlPfx`, `WeakNlPfx` structure lemmas -/

theorem nlPfx_nil : ¬ NlPfx [] := by
  rintro ⟨w, b, heq, -⟩
  simp at heq

theorem weakNlPfx_nil : ¬ WeakNlPfx [] := by
  rintro ⟨w, b, heq, -, -⟩
  simp at heq

theorem badNl_nil : ¬ BadNl [] := by
  rintro ⟨a, w, b, heq, -, -⟩
  simp at heq

theorem nlPfx_of_weak {l : List Char} (h : WeakNlPfx l) : NlPfx l := by
  obtain ⟨w, b, heq, -, hw⟩ := h
  exact ⟨w, b, heq, hw⟩

theorem nlPfx_cons_ws {c : Char} {rest : List Char} (hc : isPySpace c = true)
    (h : NlPfx rest) : NlPfx (c :: rest) := by
  obtain ⟨w, b, heq, hw⟩ := h
  refine ⟨c :: w, b, by rw [heq]; rfl, ?_⟩
  intro x hx
  rcases List.mem_cons.mp hx with rfl | hx
  · exact hc
  · exact hw x hx

theorem weakNlPfx_cons_ws {c : Char} {rest : List Char} (hc : isPySpace c = true)
    (h : NlPfx rest) : WeakNlPfx (c :: rest) := by
  obtain ⟨w, b, heq, hw⟩ := h
  refine ⟨c :: w, b, by rw [heq]; rfl, by simp, ?_⟩
  intro x hx
  rcases List.mem_cons.mp hx with rfl | hx
  · exact hc
  · exact hw x hx

theorem nlPfx_head_nl (rest : List Char) : NlPfx ('\n' :: rest) :=
  ⟨[], rest, rfl, by simp⟩

theorem nlPfx_elim {c : Char} {X : List Char} (h : NlPfx (c :: X)) :
    c = '\n' ∨ (isPySpace c = true ∧ NlPfx X) := by
  obtain ⟨w, b, heq, hw⟩ := h
  cases w with
  | nil =>
    simp only [List.nil_append, List.cons.injEq] at heq
    exact Or.inl heq.1
  | cons w0 w' =>
    simp only [List.cons_append, List.cons.injEq] at heq
    refine Or.inr ⟨heq.1 ▸ hw w0 (List.mem_cons_self _ _), ⟨w', b, heq.2, ?_⟩⟩
    intro x hx
    exact hw x (List.mem_cons_of_mem _ hx)

theorem weakNlPfx_elim {c : Char} {X : List Char} (h : WeakNlPfx (c :: X)) :
    isPySpace c = true ∧ NlPfx X := by
  obtain ⟨w, b, heq, hne, hw⟩ := h
  cases w with
  | nil => exact absurd rfl hne
  | cons w0 w' =>
    simp only [List.cons_append, List.cons.injEq] at heq
    refine ⟨heq.1 ▸ hw w0 (List.mem_cons_self _ _), ⟨w', b, heq.2, ?_⟩⟩
    intro x hx
    exact hw x (List.mem_cons_of_mem _ hx)

theorem badNl_cons {c : Char} {X : List Char} (h : BadNl X) : BadNl (c :: X) := by
  obtain ⟨a, w, b, heq, hne, hw⟩ := h
  exact ⟨c :: a, w, b, by rw [heq]; rfl, hne, hw⟩

theorem badNl_append {a x : List Char} (h : BadNl x) : BadNl (a ++ x) := by
  induction a with
  | nil => exact h
  | cons c cs ih => exact badNl_cons ih

theorem badNl_elim {c : Char} {X : List Char} (h : BadNl (c :: X)) :
    (c = '\n' ∧ WeakNlPfx X) ∨ BadNl X := by
  obtain ⟨a, w, b, heq, hne, hw⟩ := h
  cases a with
  | nil =>
    simp only [List.nil_append, List.cons.injEq] at heq
    exact Or.inl ⟨heq.1, ⟨w, b, heq.2, hne, hw⟩⟩
  | cons a0 a' =>
    simp only [List.cons_append, List.cons.injEq] at heq
    exact Or.inr ⟨a', w, b, heq.2, hne, hw⟩

theorem badNl_tail {c : Char} {X : List Char} (h : ¬ BadNl (c :: X)) : ¬ BadNl X :=
  fun hb => h (badNl_cons hb)

theorem badNl_of_weak_nl {X : List Char} (h : WeakNlPfx X) : BadNl ('\n' :: X) := by
  obtain ⟨w, b, heq, hne, hw⟩ := h
  exact ⟨[], w, b, by rw [heq]; rfl, hne, hw⟩

/-! ## `grabNl` correctness -/

theorem grabNl_none {l : List Char} (h : grabNl l = none) : ¬ NlPfx l := by
  induction l with
  | nil => exact nlPfx_nil
  | cons c rest ih =>
    intro hp
    by_cases hws : isPySpace c = true
    · rcases hg : grabNl rest with - | r
      · simp only [grabNl, hws, if_true, hg] at h
        by_cases hnl : c = '\n'
        · rw [if_pos hnl] at h
          exact absurd h (by simp)
        · rcases nlPfx_elim hp with rfl | ⟨-, hrest⟩
          · exact hnl rfl
          · exact ih hg hrest
      · simp only [grabNl, hws, if_true, hg] at h
        exact absurd h (by simp)
    · rcases nlPfx_elim hp with rfl | ⟨hws', -⟩
      · exact hws (by decide)
      · exact hws hws'

theorem grabNl_some {l r : List Char} (h : grabNl l = some r) :
    ∃ w, l = w ++ '\n' :: r ∧ (∀ c ∈ w, isPySpace c = true) ∧ ¬ NlPfx r := by
  induction l generalizing r with
  | nil => simp [grabNl] at h
  | cons c rest ih =>
    by_cases hws : isPySpace c = true
    · rcases hg : grabNl rest with - | r'
      · simp only [grabNl, hws, if_true, hg] at h
        by_cases hnl : c = '\n'
        · rw [if_pos hnl] at h
          obtain rfl : rest = r := by simpa using h
          exact ⟨[], by simp [hnl], by simp, grabNl_none hg⟩
        · rw [if_neg hnl] at h
          exact absurd h (by simp)
      · simp only [grabNl, hws, if_true, hg, Option.some.injEq] at h
        subst h
        obtain ⟨w', heq, hw', hnp⟩ := ih hg
        refine ⟨c :: w', by rw [heq]; rfl, ?_, hnp⟩
        intro x hx
        rcases List.mem_cons.mp hx with rfl | hx
        · exact hws
        · exact hw' x hx
    · simp only [grabNl, hws, if_false] at h
      exact absurd h (by simp)

theorem grabNl_some_length {l r : List Char} (h : grabNl l = some r) :
    r.length < l.length := by
  obtain ⟨w, heq, -, -⟩ := grabNl_some h
  rw [heq]
  simp
  omega

/-! ## `cnF`: the newline collapse leaves no rewritable stretch and is
stable on strings with none -/

theorem cnF_nil (f : Nat) : cnF f [] = [] := by
  cases f <;> rfl

theorem cnF_nlPfx_pres : ∀ f l, l.length ≤ f → ¬ NlPfx l → ¬ NlPfx (cnF f l)
  | 0, l, hf, hp => by
    have : l = [] := List.length_eq_zero.mp (Nat.le_zero.mp hf)
    subst this
    simpa [cnF] using hp
  | f + 1, [], _, _ => by
    rw [cnF_nil]
    exact nlPfx_nil
  | f + 1, c :: rest, hf, hp => by
    have hcnl : c ≠ '\n' := fun h => hp (h ▸ nlPfx_head_nl rest)
    have hstep : cnF (f + 1) (c :: rest) = c :: cnF f rest := by
      simp only [cnF, if_neg hcnl]
    rw [hstep]
    intro hout
    rcases nlPfx_elim hout with rfl | ⟨hws, hrest⟩
    · exact hcnl rfl
    · have hnr : ¬ NlPfx rest := fun h => hp (nlPfx_cons_ws hws h)
      exact cnF_nlPfx_pres f rest (by simpa using hf) hnr hrest

theorem cnF_noBad : ∀ f l, l.length ≤ f → ¬ BadNl (cnF f l)
  | 0, l, hf => by
    have : l = [] := List.length_eq_zero.mp (Nat.le_zero.mp hf)
    subst this
    simpa [cnF] using badNl_nil
  | f + 1, [], _ => by
    rw [cnF_nil]
    exact badNl_nil
  | f + 1, c :: rest, hf => by
    have hfr : rest.length ≤ f := by simpa using hf
    by_cases hcnl : c = '\n'
    · subst hcnl
      rcases hg : grabNl rest with - | r
      · have hstep : cnF (f + 1) ('\n' :: rest) = '\n' :: cnF f rest := by
          simp [cnF, hg]
        rw [hstep]
        intro hb
        rcases badNl_elim hb with ⟨-, hweak⟩ | hbad
        · exact cnF_nlPfx_pres f rest hfr (grabNl_none hg) (nlPfx_of_weak hweak)
        · exact cnF_noBad f rest hfr hbad
      · have hstep : cnF (f + 1) ('\n' :: rest) = '\n' :: '\n' :: cnF f r := by
          simp [cnF, hg]
        obtain ⟨w, heq, hw, hnpr⟩ := grabNl_some hg
        have hlr : r.length ≤ f := by
          have := grabNl_some_length hg
          omega
        have hnp : ¬ NlPfx (cnF f r) := cnF_nlPfx_pres f r hlr hnpr
        rw [hstep]
        intro hb
        rcases badNl_elim hb with ⟨-, hweak⟩ | hbad
        · obtain ⟨hws0, hnp'⟩ := weakNlPfx_elim hweak
          exact hnp hnp'
        · rcases badNl_elim hbad with ⟨-, hweak⟩ | hbad'
          · exact hnp (nlPfx_of_weak hweak)
          · exact cnF_noBad f r hlr hbad'
    · have hstep : cnF (f + 1) (c :: rest) = c :: cnF f rest := by
        simp only [cnF, if_neg hcnl]
      rw [hstep]
      intro hb
      rcases badNl_elim hb with ⟨hc, -⟩ | hbad
      · exact hcnl hc
      · exact cnF_noBad f rest hfr hbad

theorem cnF_fix : ∀ f l, l.length ≤ f → ¬ BadNl l → cnF f l = l
  | 0, l, _, _ => rfl
  | f + 1, [], _, _ => rfl
  | f + 1, c :: rest, hf, hnb => by
    have hfr : rest.length ≤ f := by simpa using hf
    by_cases hcnl : c = '\n'
    · subst hcnl
      rcases hg : grabNl rest with - | r
      · simp only [cnF, hg, if_true, eq_self_iff_true]
        rw [cnF_fix f rest hfr (badNl_tail hnb)]
      · obtain ⟨w, heq, hw, hnpr⟩ := grabNl_some hg
        rcases w with - | ⟨w0, w'⟩
        · simp only [List.nil_append] at heq
          subst heq
          simp only [cnF, hg, if_true, eq_self_iff_true]
          have hlr : r.length ≤ f := by
            have := grabNl_some_length hg
            omega
          rw [cnF_fix f r hlr (badNl_tail (badNl_tail hnb))]
        · exact absurd ⟨[], w0 :: w', r, by rw [heq]; rfl, by simp, hw⟩ hnb
    · simp only [cnF, if_neg hcnl]
      rw [cnF_fix f rest hfr (badNl_tail hnb)]

theorem cn_noBad (l : List Char) : ¬ BadNl (collapseNewlines l) :=
  cnF_noBad l.length l le_rfl

theorem cn_fix {l : List Char} (h : ¬ BadNl l) : collapseNewlines l = l :=
  cnF_fix l.length l le_rfl h

theorem cn_nlPfx_pres {l : List Char} (h : ¬ NlPfx l) :
    ¬ NlPfx (collapseNewlines l) :=
  cnF_nlPfx_pres l.length l le_rfl h

theorem cnF_length_le : ∀ f l, l.length ≤ f → (cnF f l).length ≤ l.length
  | 0, _, _ => le_rfl
  | _ + 1, [], _ => by simp [cnF_nil]
  | f + 1, c :: rest, hf => by
    have hfr : rest.length ≤ f := by simpa using hf
    by_cases hcnl : c = '\n'
    · subst hcnl
      rcases hg : grabNl rest with - | r
      · simp only [cnF, hg, if_true, eq_self_iff_true, List.length_cons]
        have := cnF_length_le f rest hfr
        omega
      · simp only [cnF, hg, if_true, eq_self_iff_true, List.length_cons]
        have h1 := grabNl_some_length hg
        have hlr : r.length ≤ f := by omega
        have := cnF_length_le f r hlr
        omega
    · simp only [cnF, if_neg hcnl, List.length_cons]
      have := cnF_length_le f rest hfr
      omega

/-! ## `csF`: the space collapse cannot create a rewritable newline
stretch, produces no tabs or double spaces, and is stable on such strings -/

theorem dropWhile_length_le (p : Char → Bool) (l : List Char) :
    (l.dropWhile p).length ≤ l.length := by
  induction l with
  | nil => simp
  | cons c rest ih =>
    rw [List.dropWhile_cons]
    split
    · exact le_trans ih (by simp)
    · simp

theorem csF_nil (f : Nat) : csF f [] = [] := by
  cases f <;> rfl

theorem hSpace_pySpace {c : Char} (h : isHSpace c = true) : isPySpace c = true := by
  simp only [isHSpace, Bool.or_eq_true, decide_eq_true_eq] at h
  rcases h with rfl | rfl <;> decide

theorem nlPfx_lift_dropWhile {rest : List Char}
    (h : NlPfx (rest.dropWhile isHSpace)) : NlPfx rest := by
  obtain ⟨w, b, heq, hw⟩ := h
  refine ⟨rest.takeWhile isHSpace ++ w, b, ?_, ?_⟩
  · conv_lhs => rw [← List.takeWhile_append_dropWhile (p := isHSpace) (l := rest)]
    rw [heq, List.append_assoc]
  · intro x hx
    rcases List.mem_append.mp hx with hx | hx
    · exact hSpace_pySpace (List.mem_takeWhile_imp hx)
    · exact hw x hx

theorem csF_nlPfx : ∀ f l, l.length ≤ f → NlPfx (csF f l) → NlPfx l
  | 0, _, _, h => h
  | _ + 1, [], _, h => by
    rw [csF_nil] at h
    exact absurd h nlPfx_nil
  | f + 1, c :: rest, hf, h => by
    have hfr : rest.length ≤ f := by simpa using hf
    by_cases hhs : isHSpace c = true
    · rw [show csF (f + 1) (c :: rest)
          = ' ' :: csF f (rest.dropWhile isHSpace) by simp [csF, hhs]] at h
      rcases nlPfx_elim h with hsp | ⟨-, hrest⟩
      · exact absurd hsp (by decide)
      · have hlen : (rest.dropWhile isHSpace).length ≤ f :=
          le_trans (dropWhile_length_le _ _) hfr
        exact nlPfx_cons_ws (hSpace_pySpace hhs)
          (nlPfx_lift_dropWhile (csF_nlPfx f _ hlen hrest))
    · rw [show csF (f + 1) (c :: rest) = c :: csF f rest by simp [csF, hhs]] at h
      rcases nlPfx_elim h with rfl | ⟨hws, hrest⟩
      · exact nlPfx_head_nl rest
      · exact nlPfx_cons_ws hws (csF_nlPfx f rest hfr hrest)

theorem csF_weakNlPfx {f : Nat} {l : List Char} (hf : l.length ≤ f)
    (h : WeakNlPfx (csF f l)) : WeakNlPfx l := by
  match f, l with
  | 0, l => exact h
  | f + 1, [] =>
    rw [csF_nil] at h
    exact absurd h weakNlPfx_nil
  | f + 1, c :: rest =>
    have hfr : rest.length ≤ f := by simpa using hf
    by_cases hhs : isHSpace c = true
    · rw [show csF (f + 1) (c :: rest)
          = ' ' :: csF f (rest.dropWhile isHSpace) by simp [csF, hhs]] at h
      obtain ⟨-, hrest⟩ := weakNlPfx_elim h
      have hlen : (rest.dropWhile isHSpace).length ≤ f :=
        le_trans (dropWhile_length_le _ _) hfr
      exact weakNlPfx_cons_ws (hSpace_pySpace hhs)
        (nlPfx_lift_dropWhile (csF_nlPfx f _ hlen hrest))
    · rw [show csF (f + 1) (c :: rest) = c :: csF f rest by simp [csF, hhs]] at h
      obtain ⟨hws, hrest⟩ := weakNlPfx_elim h
      exact weakNlPfx_cons_ws hws (csF_nlPfx f rest hfr hrest)

theorem csF_noBad : ∀ f l, l.length ≤ f → ¬ BadNl l → ¬ BadNl (csF f l)
  | 0, _, _, hnb => hnb
  | _ + 1, [], _, _ => by
    rw [csF_nil]
    exact badNl_nil
  | f + 1, c :: rest, hf, hnb => by
    have hfr : rest.length ≤ f := by simpa using hf
    by_cases hhs : isHSpace c = true
    · rw [show csF (f + 1) (c :: rest)
          = ' ' :: csF f (rest.dropWhile isHSpace) by simp [csF, hhs]]
      have hnbR : ¬ BadNl (rest.dropWhile isHSpace) := by
        intro hb
        apply badNl_tail hnb
        have : rest = rest.takeWhile isHSpace ++ rest.dropWhile isHSpace :=
          (List.takeWhile_append_dropWhile (p := isHSpace) (l := rest)).symm
        rw [this]
        exact badNl_append hb
      have hlen : (rest.dropWhile isHSpace).length ≤ f :=
        le_trans (dropWhile_length_le _ _) hfr
      intro hb
      rcases badNl_elim hb with ⟨hsp, -⟩ | hbad
      · exact absurd hsp (by decide)
      · exact csF_noBad f _ hlen hnbR hbad
    · rw [show csF (f + 1) (c :: rest) = c :: csF f rest by simp [csF, hhs]]
      intro hb
      rcases badNl_elim hb with ⟨rfl, hweak⟩ | hbad
      · exact hnb (badNl_of_weak_nl (csF_weakNlPfx hfr hweak))
      · exact csF_noBad f rest hfr (badNl_tail hnb) hbad

theorem noTabTwo_nil : NoTabTwo [] := by
  constructor
  · simp
  · rintro ⟨a, b, x, y, heq, -, -⟩
    simp at heq

theorem noTabTwo_elim_pair {c : Char} {Y : List Char}
    (h : ∃ a b x y, c :: Y = a ++ x :: y :: b ∧ isHSpace x = true ∧ isHSpace y = true) :
    (∃ z b, Y = z :: b ∧ isHSpace c = true ∧ isHSpace z = true) ∨
      (∃ a b x y, Y = a ++ x :: y :: b ∧ isHSpace x = true ∧ isHSpace y = true) := by
  obtain ⟨a, b, x, y, heq, hx, hy⟩ := h
  cases a with
  | nil =>
    simp only [List.nil_append, List.cons.injEq] at heq
    exact Or.inl ⟨y, b, heq.2, heq.1 ▸ hx, hy⟩
  | cons a0 a' =>
    simp only [List.cons_append, List.cons.injEq] at heq
    exact Or.inr ⟨a', b, x, y, heq.2, hx, hy⟩

theorem noTabTwo_cons {c : Char} {Y : List Char} (hY : NoTabTwo Y)
    (hc : c ≠ '\t')
    (hhead : isHSpace c = true → ∀ z, Y.head? = some z → isHSpace z = false) :
    NoTabTwo (c :: Y) := by
  constructor
  · intro hmem
    rcases List.mem_cons.mp hmem with heq | hmem
    · exact hc heq.symm
    · exact hY.1 hmem
  · intro hpair
    rcases noTabTwo_elim_pair hpair with ⟨z, b, heq, hcs, hz⟩ | hpair
    · rw [heq] at hhead
      exact absurd (hhead hcs z rfl) (by simp [hz])
    · exact hY.2 hpair

theorem csF_head_not_hSpace : ∀ f (R : List Char), (∀ d, R.head? = some d → isHSpace d = false) →
    ∀ z, (csF f R).head? = some z → isHSpace z = false
  | 0, R, hR, z, hz => hR z hz
  | _ + 1, [], _, z, hz => by simp [csF_nil] at hz
  | f + 1, d :: dr, hR, z, hz => by
    have hd : isHSpace d = false := hR d rfl
    rw [show csF (f + 1) (d :: dr) = d :: csF f dr by simp [csF, hd]] at hz
    simp only [List.head?_cons, Option.some.injEq] at hz
    exact hz ▸ hd

theorem head_dropWhile_not_hSpace (rest : List Char) :
    ∀ d, (rest.dropWhile isHSpace).head? = some d → isHSpace d = false :=
  fun _ hd => head?_dropWhile hd

theorem csF_noTabTwo : ∀ f l, l.length ≤ f → NoTabTwo (csF f l)
  | 0, l, hf => by
    have : l = [] := List.length_eq_zero.mp (Nat.le_zero.mp hf)
    subst this
    exact noTabTwo_nil
  | _ + 1, [], _ => by
    rw [csF_nil]
    exact noTabTwo_nil
  | f + 1, c :: rest, hf => by
    have hfr : rest.length ≤ f := by simpa using hf
    by_cases hhs : isHSpace c = true
    · rw [show csF (f + 1) (c :: rest)
          = ' ' :: csF f (rest.dropWhile isHSpace) by simp [csF, hhs]]
      have hlen : (rest.dropWhile isHSpace).length ≤ f :=
        le_trans (dropWhile_length_le _ _) hfr
      refine noTabTwo_cons (csF_noTabTwo f _ hlen) (by decide) ?_
      intro _ z hz
      exact csF_head_not_hSpace f _ (head_dropWhile_not_hSpace rest) z hz
    · rw [show csF (f + 1) (c :: rest) = c :: csF f rest by simp [csF, hhs]]
      refine noTabTwo_cons (csF_noTabTwo f rest hfr) ?_ ?_
      · intro heq
        rw [heq] at hhs
        exact hhs (by decide)
      · intro hc
        exact absurd hc (by simp [hhs])

theorem noTabTwo_tail {c : Char} {Y : List Char} (h : NoTabTwo (c :: Y)) : NoTabTwo Y := by
  refine ⟨fun hm => h.1 (List.mem_cons_of_mem _ hm), ?_⟩
  rintro ⟨a, b, x, y, heq, hx, hy⟩
  exact h.2 ⟨c :: a, b, x, y, by rw [heq]; rfl, hx, hy⟩

theorem csF_fix : ∀ f l, l.length ≤ f → NoTabTwo l → csF f l = l
  | 0, _, _, _ => rfl
  | _ + 1, [], _, _ => by rw [csF_nil]
  | f + 1, c :: rest, hf, hntt => by
    have hfr : rest.length ≤ f := by simpa using hf
    by_cases hhs : isHSpace c = true
    · have hc : c = ' ' := by
        rcases (by simpa [isHSpace] using hhs : c = ' ' ∨ c = '\t') with rfl | rfl
        · rfl
        · have hmem : ('\t' : Char) ∈ '\t' :: rest := List.mem_cons_self _ _
          exact absurd hmem hntt.1
      have hdrop : rest.dropWhile isHSpace = rest := by
        refine dropWhile_fix fun d hd => ?_
        cases rest with
        | nil => simp at hd
        | cons r0 rr =>
          simp only [List.head?_cons, Option.some.injEq] at hd
          by_contra hcon
          have hdt : isHSpace d = true := by simpa using hcon
          exact hntt.2 ⟨[], rr, c, r0, rfl, hhs, hd.symm ▸ hdt⟩
      rw [show csF (f + 1) (c :: rest)
          = ' ' :: csF f (rest.dropWhile isHSpace) by simp [csF, hhs], hdrop,
        csF_fix f rest hfr (noTabTwo_tail hntt), hc]
    · rw [show csF (f + 1) (c :: rest) = c :: csF f rest by simp [csF, hhs],
        csF_fix f rest hfr (noTabTwo_tail hntt)]

theorem csF_length_le : ∀ f l, (csF f l).length ≤ l.length
  | 0, _ => le_rfl
  | _ + 1, [] => by simp [csF_nil]
  | f + 1, c :: rest => by
    by_cases hhs : isHSpace c = true
    · rw [show csF (f + 1) (c :: rest)
          = ' ' :: csF f (rest.dropWhile isHSpace) by simp [csF, hhs]]
      have h1 := csF_length_le f (rest.dropWhile isHSpace)
      have h2 := dropWhile_length_le isHSpace rest
      simp only [List.length_cons]
      omega
    · rw [show csF (f + 1) (c :: rest) = c :: csF f rest by simp [csF, hhs]]
      have := csF_length_le f rest
      simp only [List.length_cons]
      omega

/-! ## Closure of the two invariants under taking infixes -/

theorem badNl_append_right {x t : List Char} (h : BadNl x) : BadNl (x ++ t) := by
  obtain ⟨a, w, b, heq, hne, hw⟩ := h
  refine ⟨a, w, b ++ t, ?_, hne, hw⟩
  rw [heq]
  simp

theorem badNl_infix {a x b : List Char} (h : BadNl x) : BadNl (a ++ x ++ b) := by
  rw [List.append_assoc]
  exact badNl_append (badNl_append_right h)

theorem noTabTwo_infix {a x b : List Char} (h : NoTabTwo (a ++ x ++ b)) :
    NoTabTwo x := by
  constructor
  · intro hm
    exact h.1 (by simp [hm])
  · rintro ⟨a0, b0, p, q, heq, hp, hq⟩
    refine h.2 ⟨a ++ a0, b0 ++ b, p, q, ?_, hp, hq⟩
    rw [heq]
    simp

theorem noTabTwo_strip {l : List Char} (h : NoTabTwo l) : NoTabTwo (stripChars l) := by
  obtain ⟨a, b, heq⟩ := strip_decomp l
  exact noTabTwo_infix (heq ▸ h)

theorem badNl_strip {l : List Char} (h : ¬ BadNl l) : ¬ BadNl (stripChars l) := by
  obtain ⟨a, b, heq⟩ := strip_decomp l
  intro hb
  exact h (heq ▸ badNl_infix hb)

/-! ## The composed whitespace normalisation (steps 3–5) is idempotent -/

theorem wsNorm_fixes {x : List Char} (hb : ¬ BadNl x) (ht : NoTabTwo x)
    (hs : stripChars x = x) :
    stripChars (collapseSpaces (collapseNewlines x)) = x := by
  rw [cn_fix hb]
  rw [show collapseSpaces x = x from csF_fix x.length x le_rfl ht]
  exact hs

theorem wsNorm_idem (l : List Char) :
    stripChars (collapseSpaces (collapseNewlines
      (stripChars (collapseSpaces (collapseNewlines l)))))
    = stripChars (collapseSpaces (collapseNewlines l)) := by
  have hbA : ¬ BadNl (collapseNewlines l) := cn_noBad l
  have hbB : ¬ BadNl (collapseSpaces (collapseNewlines l)) :=
    csF_noBad _ _ le_rfl hbA
  have hbX : ¬ BadNl (stripChars (collapseSpaces (collapseNewlines l))) :=
    badNl_strip hbB
  have htB : NoTabTwo (collapseSpaces (collapseNewlines l)) :=
    csF_noTabTwo _ _ le_rfl
  have htX : NoTabTwo (stripChars (collapseSpaces (collapseNewlines l))) :=
    noTabTwo_strip htB
  exact wsNorm_fixes hbX htX (strip_idem _)

/-! ## The think-tag removals are the identity on think-free text, and the
whitespace steps preserve think-freeness -/

theorem thinkL_chars_not_space : ∀ c ∈ thinkL, isPySpace c = false := by decide

theorem ciSub_cons_of_tail {pat : List Char} {c : Char} {rest : List Char}
    (h : ciSub pat rest = true) : ciSub pat (c :: rest) = true := by
  cases pat with
  | nil => exact ciSub_nil_pat _
  | cons p ps => simp [ciSub, h]

theorem csF_ciPfx {pat : List Char} (hpat : ∀ c ∈ pat, isPySpace c = false) :
    ∀ f l, l.length ≤ f → ciPfx pat (csF f l) = true → ciPfx pat l = true
  | 0, _, _, h => h
  | _ + 1, [], _, h => by
    rw [csF_nil] at h
    cases pat with
    | nil => exact ciPfx_nil_pat _
    | cons p ps => simp [ciPfx] at h
  | f + 1, c :: rest, hf, h => by
    have hfr : rest.length ≤ f := by simpa using hf
    cases pat with
    | nil => exact ciPfx_nil_pat _
    | cons p ps =>
      by_cases hhs : isHSpace c = true
      · rw [show csF (f + 1) (c :: rest)
            = ' ' :: csF f (rest.dropWhile isHSpace) by simp [csF, hhs]] at h
        simp only [ciPfx, Bool.and_eq_true, beq_iff_eq] at h
        have hp : p = ' ' := by simpa using h.1
        have := hpat p (List.mem_cons_self _ _)
        rw [hp] at this
        exact absurd this (by decide)
      · rw [show csF (f + 1) (c :: rest) = c :: csF f rest by simp [csF, hhs]] at h
        simp only [ciPfx, Bool.and_eq_true] at h ⊢
        exact ⟨h.1, csF_ciPfx (fun x hx => hpat x (List.mem_cons_of_mem _ hx))
          f rest hfr h.2⟩

theorem csF_ciSub {pat : List Char} (hpat : ∀ c ∈ pat, isPySpace c = false) :
    ∀ f l, l.length ≤ f → ciSub pat (csF f l) = true → ciSub pat l = true
  | 0, _, _, h => h
  | _ + 1, [], _, h => by rwa [csF_nil] at h
  | f + 1, c :: rest, hf, h => by
    have hfr : rest.length ≤ f := by simpa using hf
    by_cases hhs : isHSpace c = true
    · rw [show csF (f + 1) (c :: rest)
          = ' ' :: csF f (rest.dropWhile isHSpace) by simp [csF, hhs]] at h
      rcases pat with - | ⟨p, ps⟩
      · exact ciSub_nil_pat _
      · simp only [ciSub, Bool.or_eq_true] at h
        rcases h with h | h
        · rw [← show csF (f + 1) (c :: rest)
              = ' ' :: csF f (rest.dropWhile isHSpace) by simp [csF, hhs]] at h
          exact ciSub_of_ciPfx (csF_ciPfx hpat (f + 1) (c :: rest) hf h)
        · have hlen : (rest.dropWhile isHSpace).length ≤ f :=
            le_trans (dropWhile_length_le _ _) hfr
          exact ciSub_cons_of_tail
            (ciSub_dropWhile isHSpace (csF_ciSub hpat f _ hlen h))
    · rw [show csF (f + 1) (c :: rest) = c :: csF f rest by simp [csF, hhs]] at h
      rcases pat with - | ⟨p, ps⟩
      · exact ciSub_nil_pat _
      · simp only [ciSub, Bool.or_eq_true] at h
        rcases h with h | h
        · rw [← show csF (f + 1) (c :: rest) = c :: csF f rest by simp [csF, hhs]] at h
          exact ciSub_of_ciPfx (csF_ciPfx hpat (f + 1) (c :: rest) hf h)
        · exact ciSub_cons_of_tail (csF_ciSub hpat f rest hfr h)

theorem cnF_ciPfx {pat : List Char} (hpat : ∀ c ∈ pat, isPySpace c = false) :
    ∀ f l, l.length ≤ f → ciPfx pat (cnF f l) = true → ciPfx pat l = true
  | 0, _, _, h => h
  | _ + 1, [], _, h => by rwa [cnF_nil] at h
  | f + 1, c :: rest, hf, h => by
    have hfr : rest.length ≤ f := by simpa using hf
    cases pat with
    | nil => exact ciPfx_nil_pat _
    | cons p ps =>
      have hpnl : p ≠ '\n' := by
        intro hp
        have := hpat p (List.mem_cons_self _ _)
        rw [hp] at this
        exact absurd this (by decide)
      by_cases hcnl : c = '\n'
      · subst hcnl
        rcases hg : grabNl rest with - | r
        · rw [show cnF (f + 1) ('\n' :: rest) = '\n' :: cnF f rest by
            simp [cnF, hg]] at h
          simp only [ciPfx, Bool.and_eq_true, beq_iff_eq] at h
          exact absurd (by simpa using h.1) hpnl
        · rw [show cnF (f + 1) ('\n' :: rest) = '\n' :: '\n' :: cnF f r by
            simp [cnF, hg]] at h
          simp only [ciPfx, Bool.and_eq_true, beq_iff_eq] at h
          exact absurd (by simpa using h.1) hpnl
      · rw [show cnF (f + 1) (c :: rest) = c :: cnF f rest by
          simp [cnF, hcnl]] at h
        simp only [ciPfx, Bool.and_eq_true] at h ⊢
        exact ⟨h.1, cnF_ciPfx (fun x hx => hpat x (List.mem_cons_of_mem _ hx))
          f rest hfr h.2⟩

theorem cnF_ciSub {pat : List Char} (hpat : ∀ c ∈ pat, isPySpace c = false) :
    ∀ f l, l.length ≤ f → ciSub pat (cnF f l) = true → ciSub pat l = true
  | 0, _, _, h => h
  | _ + 1, [], _, h => by rwa [cnF_nil] at h
  | f + 1, c :: rest, hf, h => by
    have hfr : rest.length ≤ f := by simpa using hf
    rcases pat with - | ⟨p, ps⟩
    · exact ciSub_nil_pat _
    by_cases hcnl : c = '\n'
    · subst hcnl
      rcases hg : grabNl rest with - | r
      · rw [show cnF (f + 1) ('\n' :: rest) = '\n' :: cnF f rest by
          simp [cnF, hg]] at h
        simp only [ciSub, Bool.or_eq_true] at h
        rcases h with h | h
        · rw [← show cnF (f + 1) ('\n' :: rest) = '\n' :: cnF f rest by
            simp [cnF, hg]] at h
          exact ciSub_of_ciPfx (cnF_ciPfx hpat (f + 1) ('\n' :: rest) hf h)
        · exact ciSub_cons_of_tail (cnF_ciSub hpat f rest hfr h)
      · rw [show cnF (f + 1) ('\n' :: rest) = '\n' :: '\n' :: cnF f r by
          simp [cnF, hg]] at h
        obtain ⟨w, heq, hw, -⟩ := grabNl_some hg
        have hlr : r.length ≤ f := by
          have := grabNl_some_length hg
          omega
        simp only [ciSub, Bool.or_eq_true] at h
        have hsub : ciSub (p :: ps) r = true → ciSub (p :: ps) ('\n' :: rest) = true := by
          intro hr
          refine ciSub_cons_of_tail ?_
          rw [heq, show w ++ '\n' :: r = (w ++ ['\n']) ++ r by simp]
          exact ciSub_append_right _ hr
        rcases h with h | h | h
        · simp only [ciPfx, Bool.and_eq_true, beq_iff_eq] at h
          have hpnl : p = '\n' := by simpa using h.1
          have := hpat p (List.mem_cons_self _ _)
          rw [hpnl] at this
          exact absurd this (by decide)
        · simp only [ciPfx, Bool.and_eq_true, beq_iff_eq] at h
          have hpnl : p = '\n' := by simpa using h.1
          have := hpat p (List.mem_cons_self _ _)
          rw [hpnl] at this
          exact absurd this (by decide)
        · exact hsub (cnF_ciSub hpat f r hlr h)
    · rw [show cnF (f + 1) (c :: rest) = c :: cnF f rest by simp [cnF, hcnl]] at h
      simp only [ciSub, Bool.or_eq_true] at h
      rcases h with h | h
      · rw [← show cnF (f + 1) (c :: rest) = c :: cnF f rest by simp [cnF, hcnl]] at h
        exact ciSub_of_ciPfx (cnF_ciPfx hpat (f + 1) (c :: rest) hf h)
      · exact ciSub_cons_of_tail (cnF_ciSub hpat f rest hfr h)

theorem strip_ciSub {pat l : List Char} (h : ciSub pat (stripChars l) = true) :
    ciSub pat l = true := by
  obtain ⟨a, b, heq⟩ := strip_decomp l
  rw [heq]
  exact ciSub_of_infix h ⟨a, b, rfl⟩

theorem openTag_split : openTagL = '<' :: (thinkL ++ ['>']) := by decide

theorem ciPfx_openTag_thinkSub {c : Char} {rest : List Char}
    (h : ciPfx openTagL (c :: rest) = true) : ciSub thinkL (c :: rest) = true := by
  rw [openTag_split] at h
  simp only [ciPfx, Bool.and_eq_true] at h
  exact ciSub_cons_of_tail (ciSub_of_ciPfx (ciPfx_append_left h.2))

theorem rtbF_id {l : List Char} (hfree : ciSub thinkL l = false) :
    ∀ f, l.length ≤ f → rtbF f l = l := by
  induction l with
  | nil => intro f _; cases f <;> rfl
  | cons c rest ih =>
    intro f hf
    cases f with
    | zero => rfl
    | succ f =>
      have hnotag : ciPfx openTagL (c :: rest) = false := by
        by_contra hcon
        rw [ciPfx_openTag_thinkSub (by simpa using hcon)] at hfree
        exact absurd hfree (by simp)
      have hrest : ciSub thinkL rest = false := by
        have : ciSub thinkL (c :: rest)
            = (ciPfx thinkL (c :: rest) || ciSub thinkL rest) := rfl
        rw [this] at hfree
        exact (Bool.or_eq_false_iff.mp hfree).2
      rw [show rtbF (f + 1) (c :: rest) = c :: rtbF f rest by
        simp [rtbF, hnotag]]
      rw [ih hrest f (by simpa using hf)]

theorem matchTag_some_thinkSub {c : Char} {rest r : List Char}
    (h : matchTag (c :: rest) = some r) : ciSub thinkL (c :: rest) = true := by
  unfold matchTag at h
  split at h
  · rename_i r1 heq
    obtain ⟨rfl, rfl⟩ : c = '<' ∧ r1 = rest := by
      constructor <;> injection heq <;> simp_all
    split at h
    · rename_i r2 heq2
      split at h
      · rename_i hpfx
        exact ciSub_cons_of_tail (ciSub_cons_of_tail (ciSub_of_ciPfx hpfx))
      · exact absurd h (by simp)
    · split at h
      · rename_i hpfx
        exact ciSub_cons_of_tail (ciSub_of_ciPfx hpfx)
      · exact absurd h (by simp)
  · exact absurd h (by simp)

theorem rttF_id {l : List Char} (hfree : ciSub thinkL l = false) :
    ∀ f, l.length ≤ f → rttF f l = l := by
  induction l with
  | nil => intro f _; cases f <;> rfl
  | cons c rest ih =>
    intro f hf
    cases f with
    | zero => rfl
    | succ f =>
      have hnone : matchTag (c :: rest) = none := by
        rcases hm : matchTag (c :: rest) with - | r
        · rfl
        · rw [matchTag_some_thinkSub hm] at hfree
          exact absurd hfree (by simp)
      have hrest : ciSub thinkL rest = false := by
        have : ciSub thinkL (c :: rest)
            = (ciPfx thinkL (c :: rest) || ciSub thinkL rest) := rfl
        rw [this] at hfree
        exact (Bool.or_eq_false_iff.mp hfree).2
      rw [show rttF (f + 1) (c :: rest) = c :: rttF f rest by
        simp [rttF, hnone]]
      rw [ih hrest f (by simpa using hf)]

/-! ## `_clean_text` on think-free text is pure whitespace normalisation,
which is idempotent -/

theorem cleanChars_of_thinkFree {l : List Char} (hfree : ciSub thinkL l = false) :
    cleanChars l = stripChars (collapseSpaces (collapseNewlines l)) := by
  unfold cleanChars removeThinkBlocks removeThinkTags
  rw [rtbF_id hfree _ le_rfl, rttF_id hfree _ le_rfl]

theorem thinkFree_wsNorm {l : List Char} (hfree : ciSub thinkL l = false) :
    ciSub thinkL (stripChars (collapseSpaces (collapseNewlines l))) = false := by
  by_contra hcon
  have h1 : ciSub thinkL (stripChars (collapseSpaces (collapseNewlines l))) = true := by
    simpa using hcon
  have h2 := strip_ciSub h1
  have h3 := csF_ciSub thinkL_chars_not_space _ _ le_rfl h2
  have h4 := cnF_ciSub thinkL_chars_not_space _ _ le_rfl h3
  rw [h4] at hfree
  exact absurd hfree (by simp)

theorem cleanChars_idem_of_thinkFree {l : List Char} (hfree : ciSub thinkL l = false) :
    cleanChars (cleanChars l) = cleanChars l := by
  rw [cleanChars_of_thinkFree hfree,
    cleanChars_of_thinkFree (thinkFree_wsNorm hfree), wsNorm_idem]

/-! ## `_find_relevant_files`: cap, dedup, and match justification -/

theorem insertNew_length (acc : List String) (p : String) :
    (insertNew acc p).length ≤ acc.length + 1 := by
  unfold insertNew
  split
  · omega
  · simp

theorem insertNew_nodup {acc : List String} (h : acc.Nodup) (p : String) :
    (insertNew acc p).Nodup := by
  unfold insertNew
  split
  · exact h
  · rename_i hmem
    simp only [List.contains, List.elem_iff] at hmem
    simpa [List.nodup_append] using ⟨h, hmem⟩

theorem insertNew_mem {acc : List String} {p q : String}
    (h : p ∈ insertNew acc q) : p ∈ acc ∨ p = q := by
  unfold insertNew at h
  split at h
  · exact Or.inl h
  · rcases List.mem_append.mp h with h | h
    · exact Or.inl h
    · exact Or.inr (by simpa using h)

theorem scanFiles_cons (fs : FileSys) (kws : List String) (droot : String)
    (acc : List String) (f : String) (rest : List String) :
    scanFiles fs kws droot acc (f :: rest) =
      if 10 ≤ acc.length then acc
      else if (kws.any fun k => subOfB k.data (lowerList f.data)) = true then
        scanFiles fs kws droot (insertNew acc (joinPath droot f)) rest
      else
        match fs.readFile (joinPath droot f) with
        | none => scanFiles fs kws droot acc rest
        | some content =>
          if (kws.any fun k => subOfB k.data (lowerList (content.data.take 512))) = true
          then scanFiles fs kws droot (insertNew acc (joinPath droot f)) rest
          else scanFiles fs kws droot acc rest := rfl

theorem scanFiles_length {fs : FileSys} {kws : List String} {droot : String} :
    ∀ files acc, acc.length ≤ 10 → (scanFiles fs kws droot acc files).length ≤ 10
  | [], _, h => h
  | f :: rest, acc, h => by
    rw [scanFiles_cons]
    split
    · exact h
    · rename_i hlt
      have hins : (insertNew acc (joinPath droot f)).length ≤ 10 :=
        le_trans (insertNew_length acc _) (by omega)
      split
      · exact scanFiles_length rest _ hins
      · split
        · exact scanFiles_length rest _ h
        · split
          · exact scanFiles_length rest _ hins
          · exact scanFiles_length rest _ h

theorem scanFiles_nodup {fs : FileSys} {kws : List String} {droot : String} :
    ∀ files acc, acc.Nodup → (scanFiles fs kws droot acc files).Nodup
  | [], _, h => h
  | f :: rest, acc, h => by
    rw [scanFiles_cons]
    split
    · exact h
    · split
      · exact scanFiles_nodup rest _ (insertNew_nodup h _)
      · split
        · exact scanFiles_nodup rest _ h
        · split
          · exact scanFiles_nodup rest _ (insertNew_nodup h _)
          · exact scanFiles_nodup rest _ h

theorem scanFiles_mem {fs : FileSys} {kws : List String} {droot : String} :
    ∀ files acc p, p ∈ scanFiles fs kws droot acc files →
      p ∈ acc ∨ ∃ f ∈ files, p = joinPath droot f ∧
        ((kws.any fun k => subOfB k.data (lowerList f.data)) = true ∨
          ∃ c, fs.readFile (joinPath droot f) = some c ∧
            (kws.any fun k => subOfB k.data (lowerList (c.data.take 512))) = true)
  | [], _, p, h => Or.inl h
  | f :: rest, acc, p, h => by
    rw [scanFiles_cons] at h
    split at h
    · exact Or.inl h
    · have lift : (∃ g ∈ rest, p = joinPath droot g ∧
          ((kws.any fun k => subOfB k.data (lowerList g.data)) = true ∨
            ∃ c, fs.readFile (joinPath droot g) = some c ∧
              (kws.any fun k => subOfB k.data (lowerList (c.data.take 512))) = true)) →
          ∃ g ∈ f :: rest, p = joinPath droot g ∧
            ((kws.any fun k => subOfB k.data (lowerList g.data)) = true ∨
              ∃ c, fs.readFile (joinPath droot g) = some c ∧
                (kws.any fun k => subOfB k.data (lowerList (c.data.take 512))) = true) := by
        rintro ⟨g, hg, rest'⟩
        exact ⟨g, List.mem_cons_of_mem _ hg, rest'⟩
      split at h
      · rename_i hfn
        rcases scanFiles_mem rest _ p h with hmem | hrest
        · rcases insertNew_mem hmem with hmem | rfl
          · exact Or.inl hmem
          · exact Or.inr ⟨f, List.mem_cons_self _ _, rfl, Or.inl hfn⟩
        · exact Or.inr (lift hrest)
      · split at h
        · rcases scanFiles_mem rest _ p h with hmem | hrest
          · exact Or.inl hmem
          · exact Or.inr (lift hrest)
        · rename_i c hread
          split at h
          · rename_i hcm
            rcases scanFiles_mem rest _ p h with hmem | hrest
            · rcases insertNew_mem hmem with hmem | rfl
              · exact Or.inl hmem
              · exact Or.inr ⟨f, List.mem_cons_self _ _, rfl, Or.inr ⟨c, hread, hcm⟩⟩
            · exact Or.inr (lift hrest)
          · rcases scanFiles_mem rest _ p h with hmem | hrest
            · exact Or.inl hmem
            · exact Or.inr (lift hrest)

theorem walkDirs_length {fs : FileSys} {kws : List String} :
    ∀ dirs acc, acc.length ≤ 10 → (walkDirs fs kws acc dirs).length ≤ 10
  | [], _, h => h
  | d :: rest, acc, h => by
    unfold walkDirs
    split
    · exact walkDirs_length rest acc h
    · exact walkDirs_length rest _ (scanFiles_length _ _ h)

theorem walkDirs_nodup {fs : FileSys} {kws : List String} :
    ∀ dirs acc, acc.Nodup → (walkDirs fs kws acc dirs).Nodup
  | [], _, h => h
  | d :: rest, acc, h => by
    unfold walkDirs
    split
    · exact walkDirs_nodup rest acc h
    · exact walkDirs_nodup rest _ (scanFiles_nodup _ _ h)

theorem walkDirs_mem {fs : FileSys} {kws : List String} :
    ∀ dirs acc p, p ∈ walkDirs fs kws acc dirs →
      p ∈ acc ∨ ∃ droot files, (droot, files) ∈ dirs ∧ skipDir droot = false ∧
        ∃ f ∈ files, p = joinPath droot f ∧
          ((kws.any fun k => subOfB k.data (lowerList f.data)) = true ∨
            ∃ c, fs.readFile (joinPath droot f) = some c ∧
              (kws.any fun k => subOfB k.data (lowerList (c.data.take 512))) = true)
  | [], _, p, h => Or.inl h
  | d :: rest, acc, p, h => by
    unfold walkDirs at h
    split at h
    · rcases walkDirs_mem rest acc p h with hmem | ⟨droot, files, hd, hrest⟩
      · exact Or.inl hmem
      · exact Or.inr ⟨droot, files, List.mem_cons_of_mem _ hd, hrest⟩
    · rename_i hskip
      rcases walkDirs_mem rest _ p h with hmem | ⟨droot, files, hd, hrest⟩
      · rcases scanFiles_mem _ _ p hmem with hmem | ⟨f, hf, heq, hmatch⟩
        · exact Or.inl hmem
        · exact Or.inr ⟨d.1, d.2, by simp,
            by simpa using hskip, f, hf, heq, hmatch⟩
      · exact Or.inr ⟨droot, files, List.mem_cons_of_mem _ hd, hrest⟩

theorem relevantFiles_length_le (fs : FileSys) (kws : List String) :
    (relevantFilesAcc fs kws).length ≤ 10 :=
  walkDirs_length _ _ (by simp)

theorem relevantFiles_nodup (fs : FileSys) (kws : List String) :
    (relevantFilesAcc fs kws).Nodup :=
  walkDirs_nodup _ _ (by simp)

theorem relevantFiles_mem {fs : FileSys} {kws : List String} {p : String}
    (h : p ∈ relevantFilesAcc fs kws) :
    ∃ droot files, (droot, files) ∈ fs.walk ∧ skipDir droot = false ∧
      ∃ f ∈ files, p = joinPath droot f ∧
        ((kws.any fun k => subOfB k.data (lowerList f.data)) = true ∨
          ∃ c, fs.readFile (joinPath droot f) = some c ∧
            (kws.any fun k => subOfB k.data (lowerList (c.data.take 512))) = true) := by
  rcases walkDirs_mem _ _ _ h with hmem | hrest
  · simp at hmem
  · exact hrest

/-! ## Skipped subtrees contribute nothing (C8) and uppercase keywords
cannot match (C9) -/

theorem walkDirs_cons (fs : FileSys) (kws : List String) (acc : List String)
    (d : String × List String) (rest : List (String × List String)) :
    walkDirs fs kws acc (d :: rest)
      = if skipDir d.1 then walkDirs fs kws acc rest
        else walkDirs fs kws (scanFiles fs kws d.1 acc d.2) rest := rfl

theorem walkDirs_filter (fs : FileSys) (kws : List String) :
    ∀ dirs acc, walkDirs fs kws acc (dirs.filter fun d => ¬ skipDir d.1)
      = walkDirs fs kws acc dirs
  | [], _ => rfl
  | d :: rest, acc => by
    by_cases hskip : skipDir d.1 = true
    · rw [show (d :: rest).filter (fun d => ¬ skipDir d.1)
          = rest.filter (fun d => ¬ skipDir d.1) by simp [List.filter_cons, hskip]]
      rw [walkDirs_cons, if_pos hskip]
      exact walkDirs_filter fs kws rest acc
    · rw [show (d :: rest).filter (fun d => ¬ skipDir d.1)
          = d :: rest.filter (fun d => ¬ skipDir d.1) by simp [List.filter_cons, hskip]]
      rw [walkDirs_cons, walkDirs_cons, if_neg hskip, if_neg hskip]
      exact walkDirs_filter fs kws rest _

theorem subOfB_mem {needle hay : List Char} (h : subOfB needle hay = true) :
    ∀ c ∈ needle, c ∈ hay := by
  induction hay with
  | nil =>
    intro c hc
    cases needle with
    | nil => simp at hc
    | cons n ns => simp [subOfB, pfxOfB] at h
  | cons x xs ih =>
    intro c hc
    simp only [subOfB, Bool.or_eq_true] at h
    rcases h with h | h
    · have pfx_mem : ∀ (p : List Char) (l : List Char), pfxOfB p l = true →
          ∀ c ∈ p, c ∈ l := by
        intro p
        induction p with
        | nil => intro l _ c hc; simp at hc
        | cons a as ihp =>
          intro l hp c hc
          cases l with
          | nil => simp [pfxOfB] at hp
          | cons b bs =>
            simp only [pfxOfB, Bool.and_eq_true, beq_iff_eq] at hp
            rcases List.mem_cons.mp hc with rfl | hc
            · exact hp.1 ▸ List.mem_cons_self _ _
            · exact List.mem_cons_of_mem _ (ihp bs hp.2 c hc)
      exact pfx_mem needle (x :: xs) h c hc
    · exact List.mem_cons_of_mem _ (ih h c hc)

theorem upper_no_match {k : String} (hk : hasUpperStr k = true) (x : List Char) :
    subOfB k.data (lowerList x) = false := by
  by_contra hcon
  have hsub : subOfB k.data (lowerList x) = true := by simpa using hcon
  obtain ⟨c, hcmem, hcup⟩ := List.any_eq_true.mp hk
  have hmem : c ∈ lowerList x := subOfB_mem hsub c hcmem
  obtain ⟨d, -, rfl⟩ := List.mem_map.mp hmem
  rw [lowerChar_not_upper d] at hcup
  exact absurd hcup (by simp)

theorem any_filter_upper {kws : List String} {q : String → Bool}
    (hq : ∀ k ∈ kws, hasUpperStr k = true → q k = false) :
    (kws.filter fun k => ¬ hasUpperStr k).any q = kws.any q := by
  induction kws with
  | nil => rfl
  | cons k rest ih =>
    have ihr := ih fun x hx => hq x (List.mem_cons_of_mem _ hx)
    by_cases hu : hasUpperStr k = true
    · rw [show (k :: rest).filter (fun k => ¬ hasUpperStr k)
          = rest.filter (fun k => ¬ hasUpperStr k) by simp [List.filter_cons, hu]]
      rw [ihr, List.any_cons, hq k (List.mem_cons_self _ _) hu]
      simp
    · rw [show (k :: rest).filter (fun k => ¬ hasUpperStr k)
          = k :: rest.filter (fun k => ¬ hasUpperStr k) by simp [List.filter_cons, hu]]
      rw [List.any_cons, List.any_cons, ihr]

theorem scanFiles_filter_upper (fs : FileSys) (kws : List String) (droot : String) :
    ∀ files acc,
      scanFiles fs (kws.filter fun k => ¬ hasUpperStr k) droot acc files
        = scanFiles fs kws droot acc files
  | [], _ => rfl
  | f :: rest, acc => by
    rw [scanFiles_cons, scanFiles_cons]
    have hfn : ((kws.filter fun k => ¬ hasUpperStr k).any
        fun k => subOfB k.data (lowerList f.data))
        = (kws.any fun k => subOfB k.data (lowerList f.data)) :=
      any_filter_upper fun k _ hk => upper_no_match hk _
    rw [hfn]
    split
    · rfl
    · split
      · exact scanFiles_filter_upper fs kws droot rest _
      · rcases hread : fs.readFile (joinPath droot f) with - | c
        · simp only [hread]
          exact scanFiles_filter_upper fs kws droot rest _
        · simp only [hread]
          have hcm : ((kws.filter fun k => ¬ hasUpperStr k).any
              fun k => subOfB k.data (lowerList (c.data.take 512)))
              = (kws.any fun k => subOfB k.data (lowerList (c.data.take 512))) :=
            any_filter_upper fun k _ hk => upper_no_match hk _
          rw [hcm]
          split
          · exact scanFiles_filter_upper fs kws droot rest _
          · exact scanFiles_filter_upper fs kws droot rest _

theorem walkDirs_filter_upper (fs : FileSys) (kws : List String) :
    ∀ dirs acc,
      walkDirs fs (kws.filter fun k => ¬ hasUpperStr k) acc dirs
        = walkDirs fs kws acc dirs
  | [], _ => rfl
  | d :: rest, acc => by
    rw [walkDirs_cons, walkDirs_cons]
    split
    · exact walkDirs_filter_upper fs kws rest acc
    · rw [scanFiles_filter_upper]
      exact walkDirs_filter_upper fs kws rest _

theorem relevantFiles_filter_upper (fs : FileSys) (kws : List String) :
    relevantFilesAcc fs (kws.filter fun k => ¬ hasUpperStr k)
      = relevantFilesAcc fs kws :=
  walkDirs_filter_upper fs kws fs.walk []

theorem scanFiles_nil_kws (fs : FileSys) (droot : String) :
    ∀ files acc, scanFiles fs [] droot acc files = acc
  | [], _ => rfl
  | f :: rest, acc => by
    rw [scanFiles_cons]
    split
    · rfl
    · rw [if_neg (by simp)]
      rcases hread : fs.readFile (joinPath droot f) with - | c
      · simp only [hread]
        exact scanFiles_nil_kws fs droot rest acc
      · simp only [hread]
        rw [if_neg (by simp)]
        exact scanFiles_nil_kws fs droot rest acc

theorem relevantFiles_nil_kws (fs : FileSys) : relevantFilesAcc fs [] = [] := by
  unfold relevantFilesAcc
  have : ∀ dirs acc, walkDirs fs ([] : List String) acc dirs = acc := by
    intro dirs
    induction dirs with
    | nil => intro acc; rfl
    | cons d rest ih =>
      intro acc
      rw [walkDirs_cons]
      split
      · exact ih acc
      · rw [scanFiles_nil_kws]
        exact ih acc
  exact this fs.walk []

theorem findRelevantFiles_some (fs : FileSys) (cb : String) (kws : List String) :
    findRelevantFiles fs (some cb) kws
      = if kws.isEmpty then ""
        else
          if (relevantFilesAcc fs kws).isEmpty then ""
          else "Relevant files found:\n- "
            ++ joinSep "\n- " ((relevantFilesAcc fs kws).map (relPath cb)) := rfl

theorem findRelevantFiles_filter_upper (fs : FileSys) (cb : Option String)
    (kws : List String) :
    findRelevantFiles fs cb (kws.filter fun k => ¬ hasUpperStr k)
      = findRelevantFiles fs cb kws := by
  cases cb with
  | none => rfl
  | some base =>
    rw [findRelevantFiles_some, findRelevantFiles_some]
    by_cases hk : kws.isEmpty = true
    · rw [show kws = [] from List.isEmpty_iff.mp hk]
      rfl
    · by_cases hkf : (kws.filter fun k => ¬ hasUpperStr k).isEmpty = true
      · rw [if_pos hkf, if_neg hk]
        have hempty : relevantFilesAcc fs kws = [] := by
          rw [← relevantFiles_filter_upper fs kws,
            List.isEmpty_iff.mp hkf, relevantFiles_nil_kws]
        rw [hempty]
        simp
      · rw [if_neg hkf, if_neg hk, relevantFiles_filter_upper]

/-! ## The path pattern: delimited full matches are found by `findPaths` (C7) -/

theorem wordChar_pathChar {c : Char} (h : isWordChar c = true) : isPathChar c = true := by
  simp [isPathChar, h]

theorem matchSfx_decomp : ∀ {l : List Char} {m r : List Char},
    matchSfx l = some (m, r) →
      l = m ++ r ∧ m ≠ [] ∧ ∀ c ∈ m, isPathChar c = true := by
  intro l
  induction l with
  | nil => intro m r h; simp [matchSfx] at h
  | cons c rest ih =>
    intro m r h
    by_cases hpc : isPathChar c = true
    · rcases hm : matchSfx rest with - | ⟨m', r'⟩
      · rw [show matchSfx (c :: rest)
            = (if c = '.' && isWordChar (rest.head?.getD ' ') then
                some ('.' :: rest.takeWhile isWordChar, rest.dropWhile isWordChar)
              else none) by simp [matchSfx, hpc, hm]] at h
        split at h
        · rename_i hcond
          simp only [Bool.and_eq_true, decide_eq_true_eq] at hcond
          obtain ⟨rfl, -⟩ : c = '.' ∧ _ := hcond
          simp only [Option.some.injEq, Prod.mk.injEq] at h
          obtain ⟨rfl, rfl⟩ := h
          refine ⟨by simp [List.takeWhile_append_dropWhile], by simp, ?_⟩
          intro x hx
          rcases List.mem_cons.mp hx with rfl | hx
          · exact hpc
          · exact wordChar_pathChar (List.mem_takeWhile_imp hx)
        · exact absurd h (by simp)
      · rw [show matchSfx (c :: rest) = some (c :: m', r') by
          simp [matchSfx, hpc, hm]] at h
        simp only [Option.some.injEq, Prod.mk.injEq] at h
        obtain ⟨rfl, rfl⟩ := h
        obtain ⟨heq, -, hall⟩ := ih hm
        refine ⟨by rw [heq]; rfl, by simp, ?_⟩
        intro x hx
        rcases List.mem_cons.mp hx with rfl | hx
        · exact hpc
        · exact hall x hx
    · rw [show matchSfx (c :: rest) = none by simp [matchSfx, hpc]] at h
      exact absurd h (by simp)

theorem matchSfx_none_words {b : List Char} (hb : HeadNonPath b) :
    ∀ v, (∀ c ∈ v, isWordChar c = true) → matchSfx (v ++ b) = none
  | [], _ => by
    cases b with
    | nil => rfl
    | cons d b' =>
      have hd : isPathChar d = false := hb d rfl
      simp [matchSfx, hd]
  | c :: v', hv => by
    have hcw : isWordChar c = true := hv c (List.mem_cons_self _ _)
    have hcp : isPathChar c = true := wordChar_pathChar hcw
    have hrec : matchSfx (v' ++ b) = none :=
      matchSfx_none_words hb v' fun x hx => hv x (List.mem_cons_of_mem _ hx)
    have hcdot : (c = '.') = False := by
      simp only [eq_iff_iff, iff_false]
      intro hcd
      rw [hcd] at hcw
      exact absurd hcw (by decide)
    simp [matchSfx, hcp, hrec, hcdot]

theorem takeWhile_all_append {v b : List Char} {q : Char → Bool}
    (hv : ∀ c ∈ v, q c = true) (hb : ∀ c, b.head? = some c → q c = false) :
    (v ++ b).takeWhile q = v ∧ (v ++ b).dropWhile q = b := by
  induction v with
  | nil =>
    cases b with
    | nil => simp
    | cons d b' =>
      have hd : q d = false := hb d rfl
      simp [List.takeWhile_cons, List.dropWhile_cons, hd]
  | cons c v' ih =>
    have hc : q c = true := hv c (List.mem_cons_self _ _)
    have ihr := ih fun x hx => hv x (List.mem_cons_of_mem _ hx)
    simp only [List.cons_append, List.takeWhile_cons, List.dropWhile_cons, hc]
    simp [ihr.1, ihr.2]

theorem matchSfx_fullmatch {w b : List Char} (hw : ∀ c ∈ w, isWordChar c = true)
    (hwne : w ≠ []) (hb : HeadNonPath b) :
    ∀ u', (∀ c ∈ u', isPathChar c = true) →
      matchSfx (u' ++ '.' :: (w ++ b)) = some (u' ++ '.' :: w, b)
  | [], _ => by
    have hdot : isPathChar '.' = true := by decide
    have hrec : matchSfx (w ++ b) = none := matchSfx_none_words hb w hw
    have hhead : isWordChar ((w ++ b).head?.getD ' ') = true := by
      cases w with
      | nil => exact absurd rfl hwne
      | cons w0 w' =>
        simp only [List.cons_append, List.head?_cons, Option.getD_some]
        exact hw w0 (List.mem_cons_self _ _)
    have htk := takeWhile_all_append (q := isWordChar) hw
      (fun c hc => by
        have := hb c hc
        by_contra hcon
        rw [wordChar_pathChar (by simpa using hcon)] at this
        exact absurd this (by simp))
    simp only [List.nil_append]
    rw [show matchSfx ('.' :: (w ++ b))
        = (if ('.' : Char) = '.' && isWordChar ((w ++ b).head?.getD ' ') then
            some ('.' :: (w ++ b).takeWhile isWordChar, (w ++ b).dropWhile isWordChar)
          else none) by simp [matchSfx, hdot, hrec]]
    have hcond : (decide (('.' : Char) = '.') && isWordChar ((w ++ b).head?.getD ' '))
        = true := by
      rw [hhead]
      simp
    rw [if_pos hcond, htk.1, htk.2]
  | c :: u', hu => by
    have hcp : isPathChar c = true := hu c (List.mem_cons_self _ _)
    have hrec := matchSfx_fullmatch hw hwne hb u'
      fun x hx => hu x (List.mem_cons_of_mem _ hx)
    rw [show (c :: u') ++ '.' :: (w ++ b) = c :: (u' ++ '.' :: (w ++ b)) by rfl]
    rw [show matchSfx (c :: (u' ++ '.' :: (w ++ b)))
        = some (c :: (u' ++ '.' :: w), b) by simp [matchSfx, hcp, hrec]]
    rfl

theorem pathFullMatch_decomp {s : List Char} (h : pathFullMatch s = true) :
    ∃ u w, s = u ++ '.' :: w ∧ u ≠ [] ∧ (∀ c ∈ u, isPathChar c = true) ∧
      w ≠ [] ∧ ∀ c ∈ w, isWordChar c = true := by
  obtain ⟨p, hpmem, hp⟩ := List.any_eq_true.mp h
  have hplt : p < s.length := List.mem_range.mp hpmem
  simp only [Bool.and_eq_true, decide_eq_true_eq, beq_iff_eq] at hp
  obtain ⟨⟨⟨⟨hp1, hall⟩, hdot⟩, hlt⟩, hword⟩ := hp
  refine ⟨s.take p, s.drop (p + 1), ?_, ?_, ?_, ?_, ?_⟩
  · conv_lhs => rw [← List.take_append_drop p s]
    congr 1
    rw [List.drop_eq_getElem_cons hplt]
    congr 1
    rw [← hdot]
    simp [List.getD_eq_getElem?_getD, List.getElem?_eq_getElem hplt]
  · intro hnil
    have hlen : (s.take p).length = p ⊓ s.length := List.length_take _ _
    rw [hnil] at hlen
    simp only [List.length_nil] at hlen
    have : p ⊓ s.length = p := min_eq_left (le_of_lt hplt)
    omega
  · intro c hc
    exact List.all_eq_true.mp hall c hc
  · intro hnil
    have hlen : (s.drop (p + 1)).length = s.length - (p + 1) := List.length_drop _ _
    rw [hnil] at hlen
    simp only [List.length_nil] at hlen
    omega
  · intro c hc
    exact List.all_eq_true.mp hword c hc

theorem pathFullMatch_all_path {s : List Char} (h : pathFullMatch s = true) :
    ∀ c ∈ s, isPathChar c = true := by
  obtain ⟨u, w, rfl, -, hu, -, hw⟩ := pathFullMatch_decomp h
  intro c hc
  rcases List.mem_append.mp hc with hc | hc
  · exact hu c hc
  · rcases List.mem_cons.mp hc with rfl | hc
    · decide
    · exact wordChar_pathChar (hw c hc)

theorem matchPathAt_fullmatch {s b : List Char} (hs : pathFullMatch s = true)
    (hb : HeadNonPath b) : matchPathAt (s ++ b) = some (s, b) := by
  obtain ⟨u, w, rfl, hune, hu, hwne, hw⟩ := pathFullMatch_decomp hs
  cases u with
  | nil => exact absurd rfl hune
  | cons u0 u' =>
    have hu0 : isPathChar u0 = true := hu u0 (List.mem_cons_self _ _)
    have hrec := matchSfx_fullmatch hw hwne hb u'
      (fun x hx => hu x (List.mem_cons_of_mem _ hx))
    rw [show ((u0 :: u') ++ '.' :: w) ++ b = u0 :: (u' ++ '.' :: (w ++ b)) by simp]
    rw [show matchPathAt (u0 :: (u' ++ '.' :: (w ++ b)))
        = some (u0 :: (u' ++ '.' :: w), b) by simp [matchPathAt, hu0, hrec]]
    rfl

theorem matchPathAt_decomp {l m r : List Char} (h : matchPathAt l = some (m, r)) :
    l = m ++ r ∧ m ≠ [] ∧ ∀ c ∈ m, isPathChar c = true := by
  cases l with
  | nil => simp [matchPathAt] at h
  | cons c rest =>
    by_cases hpc : isPathChar c = true
    · rcases hm : matchSfx rest with - | ⟨m', r'⟩
      · rw [show matchPathAt (c :: rest) = none by simp [matchPathAt, hpc, hm]] at h
        exact absurd h (by simp)
      · rw [show matchPathAt (c :: rest) = some (c :: m', r') by
          simp [matchPathAt, hpc, hm]] at h
        simp only [Option.some.injEq, Prod.mk.injEq] at h
        obtain ⟨rfl, rfl⟩ := h
        obtain ⟨heq, -, hall⟩ := matchSfx_decomp hm
        refine ⟨by rw [heq]; rfl, by simp, ?_⟩
        intro x hx
        rcases List.mem_cons.mp hx with rfl | hx
        · exact hpc
        · exact hall x hx
    · rw [show matchPathAt (c :: rest) = none by simp [matchPathAt, hpc]] at h
      exact absurd h (by simp)

theorem path_prefix_in_delim : ∀ (m a t r : List Char),
    (∀ c ∈ m, isPathChar c = true) → LastNonPath a → a ≠ [] →
    a ++ t = m ++ r → ∃ a'', a = m ++ a'' ∧ a'' ≠ [] ∧ LastNonPath a'' ∧ r = a'' ++ t
  | [], a, t, r, _, hlast, hne, heq => ⟨a, by simp, hne, hlast, by simpa using heq.symm⟩
  | x :: m', a, t, r, hm, hlast, hne, heq => by
    cases a with
    | nil => exact absurd rfl hne
    | cons y a' =>
      simp only [List.cons_append, List.cons.injEq] at heq
      obtain ⟨rfl, heq2⟩ := heq
      cases a' with
      | nil =>
        have hy : isPathChar y = false := hlast y rfl
        have hy' : isPathChar y = true := hm y (List.mem_cons_self _ _)
        rw [hy] at hy'
        exact absurd hy' (by simp)
      | cons a0 a'' =>
        have hlast' : LastNonPath (a0 :: a'') := by
          intro c hc
          exact hlast c (by rwa [List.getLast?_cons_cons])
        obtain ⟨az, haz, hazne, hazlast, hr⟩ :=
          path_prefix_in_delim m' (a0 :: a'') t r
            (fun c hc => hm c (List.mem_cons_of_mem _ hc)) hlast' (by simp) heq2
        exact ⟨az, by rw [haz]; rfl, hazne, hazlast, hr⟩

theorem findPathsF_cons (f : Nat) (c : Char) (rest : List Char) :
    findPathsF (f + 1) (c :: rest)
      = match matchPathAt (c :: rest) with
        | some (m, r) => m :: findPathsF f r
        | none => findPathsF f rest := rfl

theorem findPathsF_mem {s b : List Char} (hs : pathFullMatch s = true)
    (hb : HeadNonPath b) :
    ∀ f a, LastNonPath a → (a ++ (s ++ b)).length ≤ f →
      s ∈ findPathsF f (a ++ (s ++ b))
  | 0, a, _, hf => by
    exfalso
    obtain ⟨u, w, rfl, hune, -, -, -⟩ := pathFullMatch_decomp hs
    simp at hf
  | f + 1, [], _, hf => by
    have hm := matchPathAt_fullmatch hs hb
    show s ∈ findPathsF (f + 1) (s ++ b)
    rcases hsb : s ++ b with - | ⟨c, rest⟩
    · obtain ⟨u, w, rfl, hune, -, -, -⟩ := pathFullMatch_decomp hs
      simp at hsb
    · rw [hsb] at hm
      rw [findPathsF_cons, hm]
      exact List.mem_cons_self _ _
  | f + 1, c :: a', hlast, hf => by
    have hlast' : LastNonPath a' := by
      intro z hz
      apply hlast z
      cases a' with
      | nil => simp at hz
      | cons a0 a'' => rwa [List.getLast?_cons_cons]
    rcases hmp : matchPathAt ((c :: a') ++ (s ++ b)) with - | ⟨m, r⟩
    · rw [show (c :: a') ++ (s ++ b) = c :: (a' ++ (s ++ b)) from rfl] at hmp ⊢
      rw [findPathsF_cons, hmp]
      exact findPathsF_mem hs hb f a' hlast' (by simp at hf ⊢; omega)
    · obtain ⟨heq, hmne, hmall⟩ := matchPathAt_decomp hmp
      obtain ⟨a'', haeq, ha''ne, ha''last, hr⟩ :=
        path_prefix_in_delim m (c :: a') (s ++ b) r hmall hlast (by simp) heq
      rw [show (c :: a') ++ (s ++ b) = c :: (a' ++ (s ++ b)) from rfl] at hmp ⊢
      rw [findPathsF_cons, hmp]
      refine List.mem_cons_of_mem _ ?_
      rw [hr]
      have hm1 : 1 ≤ m.length := by
        cases m with
        | nil => exact absurd rfl hmne
        | cons _ _ => simp
      have halen := congrArg List.length haeq
      simp only [List.length_cons, List.length_append] at halen
      exact findPathsF_mem hs hb f a'' ha''last (by simp at hf ⊢; omega)

theorem extractKeywords_mem_path {a s b : List Char} (hs : pathFullMatch s = true)
    (ha : LastNonPath a) (hb : HeadNonPath b) :
    (⟨s⟩ : String) ∈ extractKeywords ⟨a ++ (s ++ b)⟩ := by
  have hmem : s ∈ findPathsF (a ++ (s ++ b)).length (a ++ (s ++ b)) :=
    findPathsF_mem hs hb _ a ha le_rfl
  unfold extractKeywords findPaths
  refine List.mem_append.mpr (Or.inr ?_)
  exact List.mem_map.mpr ⟨s, hmem, rfl⟩

/-! ## `_add_to_history` bookkeeping -/

theorem addToHistory_blank {s : PipeState} {t : String} (h : pyStrip t = "") :
    addToHistory s t = (s, none) := by
  unfold addToHistory
  rw [if_pos (by simp [h])]

theorem addToHistory_insert {s : PipeState} {t : String} (h : pyStrip t ≠ "") :
    addToHistory s t
      = ({ s with history := (t :: s.history).take 10 },
         some ((t :: s.history).take 10)) := by
  have ht : t ≠ "" := by
    intro hnil
    apply h
    rw [hnil]
    rfl
  unfold addToHistory
  rw [if_neg (by simp [ht, h])]

theorem addAllToHistory_keeps_bound {ts : List String} :
    ∀ s : PipeState, s.history.length ≤ 10 →
      (addAllToHistory s ts).history.length ≤ 10 := by
  induction ts with
  | nil => intro s h; exact h
  | cons t ts' ih =>
    intro s h
    rw [show addAllToHistory s (t :: ts')
        = addAllToHistory (addToHistory s t).1 ts' from rfl]
    by_cases hb : pyStrip t = ""
    · rw [addToHistory_blank hb]
      exact ih s h
    · rw [addToHistory_insert hb]
      refine ih _ ?_
      simp only [List.length_take]
      omega

theorem addAllToHistory_bound {ts : List String} :
    ∀ s : PipeState, (∃ t ∈ ts, pyStrip t ≠ "") →
      (addAllToHistory s ts).history.length ≤ 10 := by
  induction ts with
  | nil =>
    intro s h
    obtain ⟨t, ht, -⟩ := h
    simp at ht
  | cons t ts' ih =>
    intro s h
    rw [show addAllToHistory s (t :: ts')
        = addAllToHistory (addToHistory s t).1 ts' from rfl]
    by_cases hb : pyStrip t = ""
    · rw [addToHistory_blank hb]
      obtain ⟨u, hu, hune⟩ := h
      rcases List.mem_cons.mp hu with rfl | hu
      · exact absurd hb hune
      · exact ih s ⟨u, hu, hune⟩
    · rw [addToHistory_insert hb]
      refine addAllToHistory_keeps_bound _ ?_
      simp only [List.length_take]
      omega

/-! # Claim theorems -/

/-- C1 counterexample: the claim asserts that a call made while a request is
in flight is rejected "with a 'still enhancing' signal delivered to the
caller". In the code (`_enhance_text`, line 609) the busy branch is a bare
`return`: the call produces no event whatsoever — no dialog, no status
update, no submission — and leaves the state untouched, so no signal of any
kind is delivered. -/
theorem c1_counterexample :
    enhanceText ⟨true, []⟩ "hello" = (⟨true, []⟩, []) := rfl

/-- C1 (amended): a request issued while the in-flight flag is set is
rejected immediately and silently — no worker task is submitted, nothing is
queued, no signal is produced, the state is unchanged; and after the worker
finishes, by success or by any failure, the in-flight flag is false
again. -/
theorem c1_single_flight_amended :
    (∀ (s : PipeState) (raw : String), s.isEnhancing = true →
      enhanceText s raw = (s, [])) ∧
    (∀ (s : PipeState) (clientReady : Bool) (api : String → Except String String)
      (text : String),
      ((enhanceWorker s clientReady api text).1).isEnhancing = false) := by
  constructor
  · intro s raw h
    unfold enhanceText
    rw [if_pos h]
  · intro s cr api text
    unfold enhanceWorker
    cases (enhanceWithGroq cr api text).1 <;> rfl

/-- C1 witness: the amended theorem applied to a concrete busy state and to
a concrete failing worker. -/
theorem c1_witness :
    enhanceText ⟨true, []⟩ "x" = (⟨true, []⟩, []) ∧
    ((enhanceWorker ⟨true, ["h"]⟩ true (fun _ => .error "boom") "x").1).isEnhancing
      = false :=
  ⟨c1_single_flight_amended.1 ⟨true, []⟩ "x" rfl,
   c1_single_flight_amended.2 ⟨true, ["h"]⟩ true (fun _ => .error "boom") "x"⟩

/-- C2 (spec-modelled): context gathering with a codebase root first
computes the cache index path `<root>/.enhancer_cache/index.json`; when the
file exists and parses, the relevance block is built from the union of the
file lists of keywords present as keys and the live scan is not performed;
the live scan runs exactly when the file is missing (with the user-visible
"No index found" status update) or malformed. -/
theorem c2_index_lookup :
    (∀ root, cacheIndexPath root = root ++ "/.enhancer_cache/index.json") ∧
    (∀ (readAt : String → Option String)
      (parseIdx : String → Option (List (String × List String)))
      (live root : String) (kws : List String),
      (readAt (cacheIndexPath root) = none →
        gatherContext readAt parseIdx live root kws
          = ⟨live, true, ["No index found — performing live search"]⟩) ∧
      (∀ content, readAt (cacheIndexPath root) = some content →
        (parseIdx content = none →
          gatherContext readAt parseIdx live root kws = ⟨live, true, []⟩) ∧
        (∀ m, parseIdx content = some m →
          gatherContext readAt parseIdx live root kws
            = ⟨indexBlock (indexUnion m kws), false, []⟩))) := by
  refine ⟨fun _ => rfl, fun readAt parseIdx live root kws => ⟨?_, ?_⟩⟩
  · intro h
    unfold gatherContext
    rw [h]
  · intro content hc
    constructor
    · intro hp
      unfold gatherContext
      rw [hc]
      simp only [hp]
    · intro m hp
      unfold gatherContext
      rw [hc]
      simp only [hp]

/-- C2 witness: the theorem applied to a concrete filesystem in which the
index exists at the computed path and parses to a one-entry mapping. -/
theorem c2_witness :
    gatherContext
      (fun p => if p = "r/.enhancer_cache/index.json" then some "raw" else none)
      (fun _ => some [("login", ["auth/login.py"])]) "LIVE" "r" ["login", "bug"]
      = ⟨indexBlock (indexUnion [("login", ["auth/login.py"])] ["login", "bug"]),
         false, []⟩ :=
  ((c2_index_lookup.2
    (fun p => if p = "r/.enhancer_cache/index.json" then some "raw" else none)
    (fun _ => some [("login", ["auth/login.py"])]) "LIVE" "r" ["login", "bug"]).2
    "raw" (by rfl)).2 [("login", ["auth/login.py"])] rfl

/-- C3: with no API credential configured the lazy client is never
constructed, so `_enhance_with_groq` fails with the "API Client not
initialized." configuration error before any network call (zero calls
made); and when the API collaborator raises, the worker ends with an error
event carrying the provider's message wrapped as "API Error: ...", the
in-flight flag cleared, and the history untouched. -/
theorem c3_error_handling :
    (∀ (initOk : Bool) (api : String → Except String String) (text : String),
      enhanceWithGroq (groqClientReady "" initOk) api text
        = (GroqOutcome.notInitialized, 0)) ∧
    (∀ (s : PipeState) (api : String → Except String String) (text msg : String),
      api text = Except.error msg →
      enhanceWorker s true api text
        = ({ s with isEnhancing := false },
           [UIEvent.showApiError ("API Error: " ++ msg)]) ∧
      (enhanceWorker s true api text).1.history = s.history) := by
  constructor
  · intro initOk api text
    unfold groqClientReady
    rw [if_pos rfl]
    rfl
  · intro s api text msg h
    have hw : enhanceWorker s true api text
        = ({ s with isEnhancing := false },
           [UIEvent.showApiError ("API Error: " ++ msg)]) := by
      unfold enhanceWorker enhanceWithGroq
      simp only [Bool.not_true, h]
      rfl
    exact ⟨hw, by rw [hw]⟩

/-- C3 witness: the theorem applied to the empty API key and to a concrete
raising collaborator. -/
theorem c3_witness :
    enhanceWithGroq (groqClientReady "" true) (fun _ => .ok "y") "x"
      = (GroqOutcome.notInitialized, 0) ∧
    enhanceWorker ⟨true, ["old"]⟩ true (fun _ => .error "boom") "x"
      = (⟨false, ["old"]⟩, [UIEvent.showApiError "API Error: boom"]) :=
  ⟨c3_error_handling.1 true (fun _ => .ok "y") "x",
   (c3_error_handling.2 ⟨true, ["old"]⟩ (fun _ => .error "boom") "x" "boom" rfl).1⟩

/-- C4 counterexample: `_clean_text` is not idempotent. On
`"<th</think>ink>A</think>B"` the tag-removal pass deletes the two
`</think>` occurrences and thereby splices the surrounding characters into
a brand-new `<think>` tag, which only a second pass would remove: one clean
yields `"<think>AB"`, cleaning again yields `"AB"`. -/
theorem c4_counterexample :
    cleanText (cleanText "<th</think>ink>A</think>B")
      ≠ cleanText "<th</think>ink>A</think>B" := by decide

/-- C4 (amended): the response-cleaning function is idempotent on every
string that does not contain the letter sequence "think" in any letter
case (strings with think-tag fragments can splice into new tags, see the
counterexample); and cleaning `"<think>reasoning</think>Result"` yields
exactly `"Result"`. -/
theorem c4_clean_idempotent_amended :
    (∀ s : String, ciSub thinkL s.data = false →
      cleanText (cleanText s) = cleanText s) ∧
    cleanText "<think>reasoning</think>Result" = "Result" := by
  constructor
  · intro s hfree
    exact congrArg (fun l => (⟨l⟩ : String)) (cleanChars_idem_of_thinkFree hfree)
  · decide

/-- C4 witness: the amended theorem applied to a concrete think-free string
with repeated whitespace. -/
theorem c4_witness :
    ciSub thinkL "a  b\n\n\nc".data = false ∧
    cleanText (cleanText "a  b\n\n\nc") = cleanText "a  b\n\n\nc" :=
  ⟨by decide, c4_clean_idempotent_amended.1 "a  b\n\n\nc" (by decide)⟩

/-- C5: inserting a successful enhancement result (any text that does not
strip to empty) into the history leaves at most 10 entries, puts the new
entry at index 0, and writes exactly the new list to the history file; and
after any sequence of repeated inserts containing at least one real insert
the history still has at most 10 entries. -/
theorem c5_history_bound :
    (∀ (s : PipeState) (t : String), pyStrip t ≠ "" →
      (addToHistory s t).1.history.length ≤ 10 ∧
      (addToHistory s t).1.history.head? = some t ∧
      (addToHistory s t).2 = some (addToHistory s t).1.history) ∧
    (∀ (s : PipeState) (ts : List String), (∃ t ∈ ts, pyStrip t ≠ "") →
      (addAllToHistory s ts).history.length ≤ 10) := by
  constructor
  · intro s t h
    rw [addToHistory_insert h]
    refine ⟨?_, ?_, rfl⟩
    · simp only [List.length_take]
      omega
    · rw [List.take_succ_cons]
      rfl
  · intro s ts h
    exact addAllToHistory_bound s h

/-- C5 witness: the theorem applied to an oversized starting history and a
concrete insert. -/
theorem c5_witness :
    pyStrip "new" ≠ "" ∧
    (addToHistory ⟨false, ["a", "b", "c", "d", "e", "f", "g", "h", "i", "j", "k"]⟩
      "new").1.history.length ≤ 10 ∧
    (addToHistory ⟨false, ["a", "b", "c", "d", "e", "f", "g", "h", "i", "j", "k"]⟩
      "new").1.history.head? = some "new" ∧
    (addAllToHistory ⟨false, []⟩ ["x", "y"]).history.length ≤ 10 := by
  refine ⟨by decide, ?_, ?_, ?_⟩
  · exact (c5_history_bound.1 ⟨false, ["a", "b", "c", "d", "e", "f", "g", "h", "i", "j", "k"]⟩
      "new" (by decide)).1
  · exact (c5_history_bound.1 ⟨false, ["a", "b", "c", "d", "e", "f", "g", "h", "i", "j", "k"]⟩
      "new" (by decide)).2.1
  · exact c5_history_bound.2 ⟨false, []⟩ ["x", "y"] ⟨"x", by simp, by decide⟩

/-- C10: adding an empty or whitespace-only string to the Enhancement
History is a no-op: the in-memory list is unchanged and the history file is
not rewritten. -/
theorem c10_blank_noop :
    ∀ (s : PipeState) (t : String), pyStrip t = "" → addToHistory s t = (s, none) :=
  fun _ _ h => addToHistory_blank h

/-- C10 witness: the theorem applied to a concrete whitespace-only string
and a concrete state. -/
theorem c10_witness :
    pyStrip "  \n" = "" ∧
    addToHistory ⟨false, ["a", "b"]⟩ "  \n" = (⟨false, ["a", "b"]⟩, none) :=
  ⟨by decide, c10_blank_noop ⟨false, ["a", "b"]⟩ "  \n" (by decide)⟩

/-- C6: for every walked directory tree and every keyword set, the live
relevance scan accumulates at most 10 file paths, without duplicates, and
every accumulated path comes from a walked, non-skipped directory and was
accepted because some keyword is a substring of the lower-cased filename or
some keyword is a substring of the lower-cased 512-character content
sample; and on a concrete tree in which 15 files match, the result is
capped at exactly 10. -/
theorem c6_live_scan_props :
    (∀ (fs : FileSys) (kws : List String),
      (relevantFilesAcc fs kws).length ≤ 10 ∧
      (relevantFilesAcc fs kws).Nodup ∧
      ∀ p ∈ relevantFilesAcc fs kws,
        ∃ droot files, (droot, files) ∈ fs.walk ∧ skipDir droot = false ∧
          ∃ f ∈ files, p = joinPath droot f ∧
            ((kws.any fun k => subOfB k.data (lowerList f.data)) = true ∨
              ∃ c, fs.readFile (joinPath droot f) = some c ∧
                (kws.any fun k => subOfB k.data (lowerList (c.data.take 512))) = true)) ∧
    (relevantFilesAcc
      ⟨[("d", ["login1.py", "login2.py", "login3.py", "login4.py", "login5.py",
               "login6.py", "login7.py", "login8.py", "login9.py", "login10.py",
               "login11.py", "login12.py", "login13.py", "login14.py",
               "login15.py"])], fun _ => none⟩ ["login"]).length = 10 := by
  constructor
  · intro fs kws
    exact ⟨relevantFiles_length_le fs kws, relevantFiles_nodup fs kws,
      fun p hp => relevantFiles_mem hp⟩
  · decide

/-- C6 witness: the justification clause applied to a concrete one-file
tree and the path it returns. -/
theorem c6_witness :
    "d/login.py" ∈ relevantFilesAcc ⟨[("d", ["login.py"])], fun _ => none⟩ ["login"] ∧
    ∃ droot files,
      (droot, files) ∈ (⟨[("d", ["login.py"])], fun _ => none⟩ : FileSys).walk ∧
      skipDir droot = false ∧
      ∃ f ∈ files, "d/login.py" = joinPath droot f ∧
        ((["login"].any fun k => subOfB k.data (lowerList f.data)) = true ∨
          ∃ c, (⟨[("d", ["login.py"])], fun _ => none⟩ : FileSys).readFile
              (joinPath droot f) = some c ∧
            (["login"].any fun k => subOfB k.data (lowerList (c.data.take 512))) = true) :=
  ⟨by decide,
   (c6_live_scan_props.1 ⟨[("d", ["login.py"])], fun _ => none⟩ ["login"]).2.2
     "d/login.py" (by decide)⟩

/-- C7 counterexample: the claim quantifies over every substring matching
the path pattern, but the extractor keeps only the leftmost-greedy
`findall` matches. In `"ab.cd.ef"` the substring `"ab.cd"` fully matches
the pattern, yet the keyword set contains only the longer match
`"ab.cd.ef"` (plus the word tokens), not `"ab.cd"`. -/
theorem c7_counterexample :
    pathFullMatch "ab.cd".data = true ∧
    "ab.cd.ef".data = [] ++ ("ab.cd".data ++ ".ef".data) ∧
    ("ab.cd" : String) ∉ extractKeywords "ab.cd.ef" := by
  refine ⟨by decide, by decide, by decide⟩

/-- C7 (amended): every substring matching the file-extension pattern is
present in the extracted Keyword Set provided it is delimited — the
characters immediately before and after it (if any) lie outside the
pattern's class `[\w\-./]`, so the leftmost-greedy match cannot extend
past it. -/
theorem c7_path_keyword_amended :
    ∀ (a s b : List Char), pathFullMatch s = true → LastNonPath a →
      HeadNonPath b → (⟨s⟩ : String) ∈ extractKeywords ⟨a ++ (s ++ b)⟩ :=
  fun _ _ _ hs ha hb => extractKeywords_mem_path hs ha hb

/-- C7 witness: the amended theorem applied to
`"fix utils/parser.py please"`. -/
theorem c7_witness :
    pathFullMatch "utils/parser.py".data = true ∧
    ("utils/parser.py" : String) ∈ extractKeywords "fix utils/parser.py please" := by
  refine ⟨by decide, ?_⟩
  have ha : LastNonPath "fix ".data := by
    intro c hc
    rw [show ("fix ".data).getLast? = some ' ' from rfl] at hc
    cases hc
    decide
  have hb : HeadNonPath " please".data := by
    intro c hc
    rw [show (" please".data).head? = some ' ' from rfl] at hc
    cases hc
    decide
  have h := c7_path_keyword_amended "fix ".data "utils/parser.py".data " please".data
    (by decide) ha hb
  have heq : (⟨"fix ".data ++ ("utils/parser.py".data ++ " please".data)⟩ : String)
      = "fix utils/parser.py please" := by decide
  have heq2 : (⟨"utils/parser.py".data⟩ : String) = "utils/parser.py" := by decide
  rw [heq, heq2] at h
  exact h

/-- C8: scanning only the walked directories whose path does not contain
`.git`, `__pycache__` or `node_modules` yields exactly the same result as
the full scan — the skipped subtrees contribute nothing and their files are
never examined; and on a concrete tree containing `.git/hooks/pre-commit`
(whose content would match) and `src/login.py`, the scan with keyword
`login` returns only `proj/src/login.py`. -/
theorem c8_skip_dirs :
    (∀ (fs : FileSys) (kws : List String),
      walkDirs fs kws [] (fs.walk.filter fun d => ¬ skipDir d.1)
        = relevantFilesAcc fs kws) ∧
    relevantFilesAcc
      ⟨[("proj", []), ("proj/.git", []), ("proj/.git/hooks", ["pre-commit"]),
        ("proj/src", ["login.py"])],
       fun p =>
        if p = "proj/.git/hooks/pre-commit" then some "#!/bin/sh\nlogin check"
        else if p = "proj/src/login.py" then some "def login(): pass"
        else none⟩ ["login"] = ["proj/src/login.py"] := by
  constructor
  · intro fs kws
    exact walkDirs_filter fs kws fs.walk []
  · decide

/-- C9: removing every keyword that contains an uppercase letter leaves the
live relevance scan unchanged — the filename and content sample are
lower-cased before the substring test while keywords are not, so an
uppercase keyword can never match — both at the level of the accumulated
file set and of the formatted `_find_relevant_files` result. -/
theorem c9_uppercase_keywords :
    (∀ (fs : FileSys) (kws : List String),
      relevantFilesAcc fs (kws.filter fun k => ¬ hasUpperStr k)
        = relevantFilesAcc fs kws) ∧
    (∀ (fs : FileSys) (cb : Option String) (kws : List String),
      findRelevantFiles fs cb (kws.filter fun k => ¬ hasUpperStr k)
        = findRelevantFiles fs cb kws) :=
  ⟨relevantFiles_filter_upper, findRelevantFiles_filter_upper⟩
